import Mathlib

/-!
Shallow embedding of `baremetal/metal3datatemplate_manager.go` from
cluster-api-provider-metal3: the `DataTemplateManager` operations
`RecreateStatus`, `CreateDatas`, `DeleteDatas` and `DeleteReady`.

Go `map[string]string` values are embedded as association lists
(`List (String × String)`) with first-match lookup; assignment replaces an
existing binding in place or appends a fresh one, so key lists stay
duplicate-free when they start that way, and the list order plays the role
of Go's (unspecified) map iteration order.  The Kubernetes client is
embedded as an environment of oracles (`Env`) returning tagged results, as
the collaborator contracts specify (`Ok | Conflict | NotFound | OtherError`).
A ghost `Trace` records the side effects the claims talk about
(status-recreation calls, create attempts, successful creates, deletes,
timestamp writes); it does not influence control flow.
-/

namespace Metal3

/-! ### String maps (Go `map[string]string`) -/

/-- A Go `map[string]string`, as an association list in insertion order. -/
abbrev SMap := List (String × String)

/-- `m[k]` (comma-ok form): first binding of `k`, if any. -/
def mapLookup : SMap → String → Option String
  | [], _ => none
  | p :: rest, k => if p.1 = k then some p.2 else mapLookup rest k

/-- `m[k] = v`: replace the first binding of `k` in place, or append a
fresh one (so insertion order is preserved). -/
def mapInsert : SMap → String → String → SMap
  | [], k, v => [(k, v)]
  | p :: rest, k, v => if p.1 = k then (k, v) :: rest else p :: mapInsert rest k v

/-- `delete(m, k)`: remove the bindings of `k`. -/
def mapErase : SMap → String → SMap
  | [], _ => []
  | p :: rest, k => if p.1 = k then mapErase rest k else p :: mapErase rest k

/-- `len(m)`: correct when the key list is duplicate-free. -/
def mapSize (m : SMap) : Nat := m.length

/-- The key list of the map. -/
def mapKeys (m : SMap) : List String := m.map Prod.fst

/-- The value list of the map. -/
def mapValues (m : SMap) : List String := m.map Prod.snd

/-- Well-formedness of an embedded Go map: distinct keys. -/
abbrev mapWF (m : SMap) : Prop := (mapKeys m).Nodup

/-! ### Decimal printing (`strconv.Itoa`) and its injectivity -/

/-- Structural decimal digit-list of a natural number (most significant
first); shown below to agree with core `Nat.toDigits 10`. -/
def decDigits (n : Nat) : List Char :=
  if _h : n < 10 then [Nat.digitChar n]
  else decDigits (n / 10) ++ [Nat.digitChar (n % 10)]
termination_by n
decreasing_by exact Nat.div_lt_self (by omega) (by omega)

/-- Decimal value of a digit character. -/
def decVal (c : Char) : Nat := c.toNat - 48

/-- `strconv.Itoa`: decimal representation of a (Go) integer. -/
def itoa : Int → String
  | Int.ofNat m => Nat.repr m
  | Int.negSucc m => "-" ++ Nat.repr (m + 1)

/-! ### Data model -/

/-- Errors surfaced by the manager; collaborator errors carry an identity so
that "propagated unchanged" is meaningful. -/
inductive GoErr
  | parseGV (gv : String)
  | noClusterName
  | collaborator (msg : String)
deriving DecidableEq, Repr

/-- `schema.GroupVersion`. -/
structure GroupVersion where
  group : String
  version : String
deriving DecidableEq, Repr

/-- Number of slash characters in a char list (`strings.Count(gv, "/")`). -/
def slashCount (l : List Char) : Nat := (l.filter (fun c => c = Char.ofNat 47)).length

/-- `schema.ParseGroupVersion` from k8s apimachinery: empty or "/" parse to
the empty GroupVersion; no slash means version only; one slash splits into
group and version; more is an error. -/
def parseGroupVersion (gv : String) : Except GoErr GroupVersion :=
  if gv = "" ∨ gv = "/" then Except.ok ⟨"", ""⟩
  else
    match slashCount gv.data with
    | 0 => Except.ok ⟨"", gv⟩
    | 1 =>
      Except.ok ⟨(gv.data.takeWhile (fun c => c ≠ Char.ofNat 47)).asString,
        ((gv.data.dropWhile (fun c => c ≠ Char.ofNat 47)).drop 1).asString⟩
    | _ => Except.error (GoErr.parseGV gv)

/-- `metav1.OwnerReference`, restricted to the fields the manager reads. -/
structure OwnerRef where
  kind : String
  apiVersion : String
  name : String
deriving DecidableEq, Repr

/-- `corev1.ObjectReference`, restricted to the fields the manager reads. -/
structure ObjectRef where
  name : String
  inNamespace : String
deriving DecidableEq, Repr

/-- A `capm3.Metal3Data` object, restricted to the fields the manager reads
or sets. -/
structure Metal3Data where
  name : String
  inNamespace : String
  labels : List (String × String)
  ownerReferences : List OwnerRef
  index : Int
  dataTemplate : Option ObjectRef
  metal3Machine : Option ObjectRef
deriving DecidableEq, Repr

/-- `Metal3DataTemplateStatus`: the two maps plus the `LastUpdated`
timestamp, abstracted to whether it has ever been set (wall-clock time is
external). -/
structure MStatus where
  indexes : SMap
  dataNames : SMap
  lastUpdatedSet : Bool
deriving DecidableEq, Repr

/-- The mutual-consistency invariant of claim C2, in the spec's words:
every value of `indexes` appears as a key of `dataNames` and every key of
`dataNames` appears as a value of `indexes` (matching owner identity). -/
abbrev mutuallyConsistent (s : MStatus) : Prop :=
  (∀ v ∈ mapValues s.indexes, v ∈ mapKeys s.dataNames)
  ∧ (∀ k ∈ mapKeys s.dataNames, k ∈ mapValues s.indexes)

/-- The `capm3.Metal3DataTemplate`, restricted to the fields the manager
reads or mutates. -/
structure Template where
  name : String
  inNamespace : String
  apiVersion : String
  kind : String
  labels : List (String × String)
  ownerReferences : List OwnerRef
  status : MStatus
deriving DecidableEq, Repr

/-- Result of `getM3Machine` (resolve the owning member). -/
inductive ResolveRes
  | found
  | notFound
  | err (e : GoErr)
deriving DecidableEq, Repr

/-- Result of `createObject` (`createDerived`): Conflict is the
distinguished `HasRequeueAfterError` classification. -/
inductive CreateRes
  | ok
  | conflict
  | err (e : GoErr)
deriving DecidableEq, Repr

/-- Result of `client.Get` on a Metal3Data. -/
inductive GetRes
  | found (d : Metal3Data)
  | notFound
  | err (e : GoErr)
deriving DecidableEq, Repr

/-- Result of `client.Delete` on a Metal3Data. -/
inductive DeleteRes
  | ok
  | notFound
  | err (e : GoErr)
deriving DecidableEq, Repr

/-- The external collaborators (Kubernetes client), as oracles.
`listResult` is the namespace-scoped `client.List` used by
`RecreateStatus`; the others are keyed by the argument the Go code passes. -/
structure Env where
  listResult : Except GoErr (List Metal3Data)
  resolve : String → ResolveRes
  create : Metal3Data → CreateRes
  get : String → GetRes
  delete : String → DeleteRes

/-- Ghost instrumentation: observable side effects of one pass. -/
structure Trace where
  recreates : Nat
  attempts : List String
  created : List String
  deleted : List String
  tsWrites : Nat
deriving DecidableEq, Repr

/-- The empty trace. -/
def Trace.nil : Trace := ⟨0, [], [], [], 0⟩

/-- Outcome of a pass, distinguishing the soft requeue signal
(`RequeueAfterError`) from hard errors. -/
inductive Outcome
  | ok
  | requeueAfter
  | failed (e : GoErr)
deriving DecidableEq, Repr

/-- `capm3.GroupVersion.Group` of this provider. -/
def metal3Group : String := "infrastructure.cluster.x-k8s.io"

/-- `capi.ClusterLabelName`. -/
def clusterLabelName : String := "cluster.x-k8s.io/cluster-name"

/-- Lookup in a label map. -/
def labelLookup (ls : List (String × String)) (k : String) : Option String :=
  (ls.find? (fun p => p.1 == k)).map Prod.snd

/-- An owner reference matches the expected member type: kind
`Metal3Machine` and the provider API group (the creation/deletion passes
skip a reference exactly when this is false, after a successful parse). -/
def isMatchingRef (r : OwnerRef) : Bool :=
  match parseGroupVersion r.apiVersion with
  | Except.ok gv => r.kind == "Metal3Machine" && gv.group == metal3Group
  | Except.error _ => false

/-- A Metal3Data object back-references the template of the given name
(`Spec.DataTemplate` set and naming it). -/
def backRefs (tplName : String) (d : Metal3Data) : Bool :=
  match d.dataTemplate with
  | none => false
  | some r => r.name == tplName

/-- The machine name a Metal3Data records, defaulting to the empty string
(`RecreateStatus` lines 127-130). -/
def recordedMachineName (d : Metal3Data) : String :=
  match d.metal3Machine with
  | none => ""
  | some r => r.name

/-! ### RecreateStatus -/

/-- The loop of `RecreateStatus` (lines 115-133): fold the listed
Metal3Data objects into the two maps, skipping objects that do not
back-reference the template. -/
def recreateLoop (tplName : String) : List Metal3Data → SMap → SMap → SMap × SMap
  | [], idx, dn => (idx, dn)
  | d :: rest, idx, dn =>
    if backRefs tplName d then
      recreateLoop tplName rest
        (mapInsert idx (itoa d.index) (recordedMachineName d))
        (mapInsert dn (recordedMachineName d) d.name)
    else
      recreateLoop tplName rest idx dn

/-- `RecreateStatus` on a status record: wipe both maps, list the
namespace's Metal3Data objects (an error propagates, leaving the wiped
maps in memory), fold them in, and set the timestamp.  The trace records
one recreation and, on success, one timestamp write. -/
def recreateStatusCore (env : Env) (tplName : String) (s : MStatus) (tr : Trace) :
    MStatus × Trace × Option GoErr :=
  let s := { s with indexes := [], dataNames := [] }
  let tr := { tr with recreates := tr.recreates + 1 }
  match env.listResult with
  | Except.error e => (s, tr, some e)
  | Except.ok objs =>
    let r := recreateLoop tplName objs s.indexes s.dataNames
    ({ indexes := r.1, dataNames := r.2, lastUpdatedSet := true },
      { tr with tsWrites := tr.tsWrites + 1 }, none)

/-- `RecreateStatus` on the template. -/
def recreateStatus (env : Env) (t : Template) : Template × Trace × Option GoErr :=
  let r := recreateStatusCore env t.name t.status Trace.nil
  ({ t with status := r.1 }, r.2)

/-! ### Index allocation (CreateDatas lines 192-204) -/

/-- The gap-scan loop `for index := 0; index < n; index++` over the listed
candidate indices: the first one whose decimal key is absent from the map
(the loop breaks there; the inner `machineIndexInt == len(...)` guard is
always true when that branch is first reached). -/
def gapScan (idx : SMap) : List Nat → Option Nat
  | [] => none
  | i :: rest =>
    if (mapLookup idx (itoa (Int.ofNat i))).isNone then some i
    else gapScan idx rest

/-- Index allocation: `machineIndexInt` starts at `len(indexes)` and the
scan over `0..len-1` replaces it with the first gap if one exists. -/
def allocateIndex (idx : SMap) : Nat :=
  match gapScan idx (List.range (mapSize idx)) with
  | some i => i
  | none => mapSize idx

/-! ### CreateDatas -/

/-- The Metal3Data object built by `CreateDatas` (lines 216-248) for owner
reference `r`, with the chosen index, owned jointly by the member and the
template. -/
def buildDataObject (t : Template) (r : OwnerRef) (clusterName : String)
    (machineIndexInt : Int) (dataName : String) : Metal3Data :=
  { name := dataName
    inNamespace := t.inNamespace
    labels := [(clusterLabelName, clusterName)]
    ownerReferences := [r, { kind := t.kind, apiVersion := t.apiVersion, name := t.name }]
    index := machineIndexInt
    dataTemplate := some { name := t.name, inNamespace := t.inNamespace }
    metal3Machine := some { name := r.name, inNamespace := t.inNamespace } }

/-- The loop of `CreateDatas` (lines 149-264) over the owner references,
threading the in-memory status, the `requeueNeeded` flag and the trace;
a hard error stops the loop and is returned. -/
def createLoop (env : Env) (t : Template) :
    List OwnerRef → MStatus → Bool → Trace → MStatus × Bool × Trace × Option GoErr
  | [], s, rq, tr => (s, rq, tr, none)
  | r :: rest, s, rq, tr =>
    match parseGroupVersion r.apiVersion with
    | Except.error e => (s, rq, tr, some e)
    | Except.ok gv =>
      -- not a Metal3Machine of the provider group: discard
      if r.kind ≠ "Metal3Machine" ∨ gv.group ≠ metal3Group then
        createLoop env t rest s rq tr
      -- owner already has an entry: discard
      else if (mapLookup s.dataNames r.name).isSome then
        createLoop env t rest s rq tr
      else
        match env.resolve r.name with
        | ResolveRes.err e => (s, rq, tr, some e)
        | ResolveRes.notFound => createLoop env t rest s rq tr
        | ResolveRes.found =>
          match labelLookup t.labels clusterLabelName with
          | none => (s, rq, tr, some GoErr.noClusterName)
          | some clusterName =>
            -- nil-map initialization is a no-op on association lists
            let machineIndexInt := allocateIndex s.indexes
            let machineIndex := itoa (Int.ofNat machineIndexInt)
            let dataName := t.name ++ "-" ++ machineIndex
            let s := { s with
              indexes := mapInsert s.indexes machineIndex r.name
              dataNames := mapInsert s.dataNames r.name dataName }
            let d := buildDataObject t r clusterName (Int.ofNat machineIndexInt) dataName
            let tr := { tr with attempts := tr.attempts ++ [dataName] }
            match env.create d with
            | CreateRes.ok =>
              createLoop env t rest s rq { tr with created := tr.created ++ [dataName] }
            | CreateRes.conflict =>
              -- recreate the status; its own error aborts the pass
              let rc := recreateStatusCore env t.name s tr
              match rc.2.2 with
              | some e => (rc.1, rq, rc.2.1, some e)
              | none => createLoop env t rest rc.1 true rc.2.1
            | CreateRes.err e => (s, rq, tr, some e)

/-- `CreateDatas` (lines 145-270): run the loop; on success update the
timestamp and signal a soft requeue when the flag is set. -/
def createDatas (env : Env) (t : Template) : Template × Outcome × Trace :=
  let r := createLoop env t t.ownerReferences t.status false Trace.nil
  match r.2.2.2 with
  | some e => ({ t with status := r.1 }, Outcome.failed e, r.2.2.1)
  | none =>
    ({ t with status := { r.1 with lastUpdatedSet := true } },
      if r.2.1 then Outcome.requeueAfter else Outcome.ok,
      { r.2.2.1 with tsWrites := r.2.2.1.tsWrites + 1 })

/-! ### DeleteDatas -/

/-- The inner loop of `DeleteDatas` (lines 279-296): is the machine name
among the matching owner references?  A parse error is surfaced. -/
def checkPresent : List OwnerRef → String → Except GoErr Bool
  | [], _ => Except.ok false
  | r :: rest, machineName =>
    match parseGroupVersion r.apiVersion with
    | Except.error e => Except.error e
    | Except.ok gv =>
      if r.kind ≠ "Metal3Machine" ∨ gv.group ≠ metal3Group then
        checkPresent rest machineName
      else if machineName = r.name then Except.ok true
      else checkPresent rest machineName

/-- The scan of lines 322-327: index of the last entry whose value is the
machine name, defaulting to the empty string (list order stands for Go's
map iteration order). -/
def lastIndexWithValue (idx : SMap) (machineName : String) : String :=
  idx.foldl (fun acc p => if p.2 == machineName then p.1 else acc) ""

/-- The outer loop of `DeleteDatas` (lines 276-331) over a snapshot of the
`dataNames` entries.  For an owner no longer present: get the Metal3Data
("not found" tolerated), delete it ("not found" tolerated), then remove
the matching index entry and the dataNames entry. -/
def deleteLoop (env : Env) (refs : List OwnerRef) :
    List (String × String) → SMap → SMap → Trace → SMap × SMap × Trace × Option GoErr
  | [], idx, dn, tr => (idx, dn, tr, none)
  | (machineName, dataName) :: rest, idx, dn, tr =>
    match checkPresent refs machineName with
    | Except.error e => (idx, dn, tr, some e)
    | Except.ok true => deleteLoop env refs rest idx dn tr
    | Except.ok false =>
      let afterGet : Trace × Option GoErr :=
        match env.get dataName with
        | GetRes.err e => (tr, some e)
        | GetRes.notFound => (tr, none)
        | GetRes.found _ =>
          match env.delete dataName with
          | DeleteRes.err e => (tr, some e)
          | DeleteRes.notFound => (tr, none)
          | DeleteRes.ok => ({ tr with deleted := tr.deleted ++ [dataName] }, none)
      match afterGet.2 with
      | some e => (idx, dn, afterGet.1, some e)
      | none =>
        let deletionIndex := lastIndexWithValue idx machineName
        deleteLoop env refs rest (mapErase idx deletionIndex) (mapErase dn machineName)
          afterGet.1

/-- `DeleteDatas` (lines 273-334): run the loop over the current
`dataNames` entries; on success update the timestamp once. -/
def deleteDatas (env : Env) (t : Template) : Template × Option GoErr × Trace :=
  let r := deleteLoop env t.ownerReferences t.status.dataNames
    t.status.indexes t.status.dataNames Trace.nil
  match r.2.2.2 with
  | some e =>
    ({ t with status := { t.status with indexes := r.1, dataNames := r.2.1 } },
      some e, r.2.2.1)
  | none =>
    ({ t with status := { indexes := r.1, dataNames := r.2.1, lastUpdatedSet := true } },
      none, { r.2.2.1 with tsWrites := r.2.2.1.tsWrites + 1 })

/-! ### DeleteReady -/

/-- `DeleteReady` (lines 338-353).  Note the source tests
`Kind == "Metal3Machine" || Group == capm3.GroupVersion.Group` — a
disjunction, unlike the conjunction used by the create/delete passes. -/
def deleteReady : List OwnerRef → Bool × Option GoErr
  | [] => (true, none)
  | r :: rest =>
    match parseGroupVersion r.apiVersion with
    | Except.error e => (false, some e)
    | Except.ok gv =>
      if r.kind = "Metal3Machine" ∨ gv.group = metal3Group then (false, none)
      else deleteReady rest

/-- `DeleteReady` on the template. -/
def deleteReadyT (t : Template) : Bool × Option GoErr :=
  deleteReady t.ownerReferences

/-! ### Concrete scenarios used by the claims -/

/-- The provider apiVersion as carried by owner references. -/
def m3apiVersion : String := "infrastructure.cluster.x-k8s.io/v1alpha4"

/-- Allocator example: a map with a gap at index 2. -/
def gapMap : SMap := [("0", "m0"), ("1", "m1"), ("3", "m3")]

/-- Allocator example: a gapless map. -/
def fullMap : SMap := [("0", "m0"), ("1", "m1"), ("2", "m2")]

/-- Template `tpl` with owner references `[m1, m2]` and an empty status. -/
def tplC6 : Template :=
  { name := "tpl"
    inNamespace := "ns"
    apiVersion := m3apiVersion
    kind := "Metal3DataTemplate"
    labels := [(clusterLabelName, "cluster-1")]
    ownerReferences := [⟨"Metal3Machine", m3apiVersion, "m1"⟩,
      ⟨"Metal3Machine", m3apiVersion, "m2"⟩]
    status := { indexes := [], dataNames := [], lastUpdatedSet := false } }

/-- A well-behaved client: both members resolve, creation succeeds, and
`tpl-0` exists for the deletion pass. -/
def envC6 : Env :=
  { listResult := Except.ok []
    resolve := fun _ => ResolveRes.found
    create := fun _ => CreateRes.ok
    get := fun n =>
      if n = "tpl-0" then
        GetRes.found ⟨"tpl-0", "ns", [], [], 0, some ⟨"tpl", "ns"⟩, some ⟨"m1", "ns"⟩⟩
      else GetRes.notFound
    delete := fun _ => DeleteRes.ok }

/-- The template after the creation pass of claim C6. -/
def tplC6afterCreate : Template := (createDatas envC6 tplC6).1

/-- The same template with `m1` removed from the owner references. -/
def tplC6afterRemoval : Template :=
  { tplC6afterCreate with ownerReferences := [⟨"Metal3Machine", m3apiVersion, "m2"⟩] }

/-- The apiVersion of an owner reference parses successfully. -/
def parseOK (gv : String) : Bool :=
  match parseGroupVersion gv with
  | Except.ok _ => true
  | Except.error _ => false

/-- A racing client: the world already holds `tpl-0` for `m1`, so creating
`tpl-0` reports a conflict, while any other creation succeeds. -/
def envC3 : Env :=
  { listResult :=
      Except.ok [⟨"tpl-0", "ns", [], [], 0, some ⟨"tpl", "ns"⟩, some ⟨"m1", "ns"⟩⟩]
    resolve := fun _ => ResolveRes.found
    create := fun d => if d.name = "tpl-0" then CreateRes.conflict else CreateRes.ok
    get := fun _ => GetRes.notFound
    delete := fun _ => DeleteRes.ok }

/-- A derived object of `tpl` at index 0 owned by `m1`. -/
def d0C5 : Metal3Data := ⟨"tpl-0", "ns", [], [], 0, some ⟨"tpl", "ns"⟩, some ⟨"m1", "ns"⟩⟩

/-- An orphaned derived object of `tpl` at index 1 (no owning member). -/
def d1C5 : Metal3Data := ⟨"tpl-1", "ns", [], [], 1, some ⟨"tpl", "ns"⟩, none⟩

/-- A derived object of a different template, sharing index 0. -/
def d2C5 : Metal3Data := ⟨"other-0", "ns", [], [], 0, some ⟨"other", "ns"⟩, some ⟨"zz", "ns"⟩⟩

/-- A client whose namespace listing returns the three objects above. -/
def envC5 : Env := { envC6 with listResult := Except.ok [d0C5, d1C5, d2C5] }

/-- A failing client: every creation reports a non-conflict error. -/
def envC10 : Env :=
  { envC6 with create := fun _ => CreateRes.err (GoErr.collaborator "etcd down") }

/-- A racing deleter: every get and every delete reports "not found". -/
def envC8 : Env :=
  { envC6 with get := fun _ => GetRes.notFound, delete := fun _ => DeleteRes.notFound }

/-- A template whose status carries two orphan index entries sharing the
empty owner value — the state RecreateStatus records when several
orphaned derived objects exist — with that orphan owner absent from the
owner references. -/
def tplC2x : Template :=
  { tplC6 with
    ownerReferences := [⟨"Metal3Machine", m3apiVersion, "m2"⟩]
    status := { indexes := [("0", ""), ("1", "")]
                dataNames := [("", "tpl-1")]
                lastUpdatedSet := true } }

/-- An owner reference that is not of the expected member type (wrong
kind), but carries the provider API group. -/
def metal3ClusterRef : OwnerRef := ⟨"Metal3Cluster", m3apiVersion, "cluster-1"⟩

/-- A template whose only owner reference is `metal3ClusterRef`. -/
def tplC4 : Template := { tplC6 with ownerReferences := [metal3ClusterRef] }

/-! ### Theorems: decimal printing -/

theorem decDigits_ne_nil (n : Nat) : decDigits n ≠ [] := by
  rw [decDigits]
  split
  · simp
  · simp

theorem digitChar_decVal {n : Nat} (h : n < 10) : decVal (Nat.digitChar n) = n := by
  interval_cases n <;> decide

theorem digitChar_ne_dash {n : Nat} (h : n < 10) : Nat.digitChar n ≠ Char.ofNat 45 := by
  interval_cases n <;> decide

theorem decDigits_mem_ne_dash (n : Nat) :
    ∀ c ∈ decDigits n, c ≠ Char.ofNat 45 := by
  induction n using Nat.strong_induction_on with
  | _ n ih =>
    intro c hc
    rw [decDigits] at hc
    split at hc
    · next h =>
      simp at hc
      subst hc
      exact digitChar_ne_dash h
    · next h =>
      rcases List.mem_append.mp hc with h1 | h1
      · exact ih (n / 10) (Nat.div_lt_self (by omega) (by omega)) c h1
      · simp at h1
        subst h1
        exact digitChar_ne_dash (Nat.mod_lt _ (by omega))

theorem decDigits_foldl (n : Nat) :
    ∀ a : Nat, (decDigits n).foldl (fun a c => a * 10 + decVal c) a
      = a * 10 ^ (decDigits n).length + n := by
  induction n using Nat.strong_induction_on with
  | _ n ih =>
    intro a
    rw [decDigits]
    split
    · next h =>
      simp [digitChar_decVal h]
    · next h =>
      rw [List.foldl_append, ih (n / 10) (Nat.div_lt_self (by omega) (by omega)) a]
      simp only [List.foldl_cons, List.foldl_nil, List.length_append,
        List.length_singleton]
      rw [digitChar_decVal (Nat.mod_lt _ (by omega))]
      rw [pow_succ, ← mul_assoc]
      have h2 := Nat.div_add_mod n 10
      generalize a * 10 ^ (decDigits (n / 10)).length = w at *
      omega

theorem decDigits_injective : Function.Injective decDigits := by
  intro m n h
  have hm := decDigits_foldl m 0
  have hn := decDigits_foldl n 0
  rw [h] at hm
  simpa [hm] using hn

/-- Core `Nat.toDigitsCore` with enough fuel computes `decDigits`. -/
theorem toDigitsCore_eq_decDigits :
    ∀ (fuel n : Nat) (acc : List Char), n < fuel →
      Nat.toDigitsCore 10 fuel n acc = decDigits n ++ acc := by
  intro fuel
  induction fuel with
  | zero => intro n acc h; omega
  | succ f ihf =>
    intro n acc h
    rw [Nat.toDigitsCore]
    by_cases h10 : n / 10 = 0
    · have hn : n < 10 := by omega
      rw [if_pos h10, decDigits, dif_pos hn]
      have : n % 10 = n := Nat.mod_eq_of_lt hn
      rw [this]
      rfl
    · have hge : ¬ n < 10 := by
        intro hc
        exact h10 (Nat.div_eq_of_lt hc)
      rw [if_neg h10]
      have hlt : n / 10 < f := by
        have h1 : n / 10 < n := Nat.div_lt_self (by omega) (by omega)
        omega
      rw [ihf (n / 10) _ hlt]
      conv_rhs => rw [decDigits]
      rw [dif_neg hge, List.append_assoc]
      rfl

theorem natRepr_eq_decDigits (n : Nat) : Nat.repr n = (decDigits n).asString := by
  rw [Nat.repr, Nat.toDigits, toDigitsCore_eq_decDigits (n + 1) n [] (by omega)]
  simp

theorem natRepr_injective : Function.Injective Nat.repr := by
  intro m n h
  rw [natRepr_eq_decDigits, natRepr_eq_decDigits] at h
  apply decDigits_injective
  have := congrArg String.data h
  simpa [List.asString] using this

theorem data_natRepr (n : Nat) : (Nat.repr n).data = decDigits n := by
  rw [natRepr_eq_decDigits]
  simp [List.asString]

theorem itoa_injective : Function.Injective itoa := by
  intro a b h
  have hdash : ∀ k : Nat, ("-" ++ Nat.repr k).data = Char.ofNat 45 :: decDigits k := by
    intro k
    rw [String.data_append, data_natRepr]
    rfl
  cases a with
  | ofNat m =>
    cases b with
    | ofNat n =>
      exact congrArg Int.ofNat (natRepr_injective h)
    | negSucc n =>
      exfalso
      have := congrArg String.data h
      rw [itoa, itoa, data_natRepr, hdash] at this
      have hmem : Char.ofNat 45 ∈ decDigits m := by
        rw [this]; simp
      exact decDigits_mem_ne_dash m _ hmem rfl
  | negSucc m =>
    cases b with
    | ofNat n =>
      exfalso
      have := congrArg String.data h
      rw [itoa, itoa, data_natRepr, hdash] at this
      have hmem : Char.ofNat 45 ∈ decDigits n := by
        rw [← this]; simp
      exact decDigits_mem_ne_dash n _ hmem rfl
    | negSucc n =>
      have := congrArg String.data h
      rw [itoa, itoa, hdash, hdash] at this
      simp only [List.cons.injEq, true_and] at this
      have := decDigits_injective this
      have hmn : m = n := by omega
      rw [hmn]


/-! ### Theorems: string maps -/

theorem mapLookup_isSome_iff (m : SMap) (k : String) :
    (mapLookup m k).isSome ↔ k ∈ mapKeys m := by
  induction m with
  | nil => simp [mapLookup, mapKeys]
  | cons p rest ih =>
    by_cases h : p.1 = k
    · simp [mapLookup, mapKeys, h]
    · simp [mapLookup, mapKeys, h, ih, Ne.symm h]

theorem mapLookup_mapInsert_self (m : SMap) (k v : String) :
    mapLookup (mapInsert m k v) k = some v := by
  induction m with
  | nil => simp [mapInsert, mapLookup]
  | cons p rest ih =>
    by_cases h : p.1 = k
    · simp [mapInsert, mapLookup, h]
    · simp [mapInsert, mapLookup, h, ih]

theorem mapLookup_mapInsert_ne (m : SMap) (k v k2 : String) (h : k2 ≠ k) :
    mapLookup (mapInsert m k v) k2 = mapLookup m k2 := by
  induction m with
  | nil => simp [mapInsert, mapLookup, Ne.symm h]
  | cons p rest ih =>
    by_cases hp : p.1 = k
    · by_cases hp2 : p.1 = k2
      · exfalso; apply h; rw [← hp2, hp]
      · simp [mapInsert, mapLookup, hp, hp2, Ne.symm h]
    · by_cases hp2 : p.1 = k2
      · simp [mapInsert, mapLookup, hp, hp2, h]
      · simp [mapInsert, mapLookup, hp, hp2, ih]

theorem mapInsert_of_lookup_none (m : SMap) (k v : String)
    (h : mapLookup m k = none) : mapInsert m k v = m ++ [(k, v)] := by
  induction m with
  | nil => simp [mapInsert]
  | cons p rest ih =>
    rw [mapLookup] at h
    by_cases hp : p.1 = k
    · simp [hp] at h
    · rw [if_neg hp] at h
      simp [mapInsert, hp, ih h]

theorem mapKeys_mapInsert (m : SMap) (k v : String) :
    mapKeys (mapInsert m k v)
      = if (mapLookup m k).isSome then mapKeys m else mapKeys m ++ [k] := by
  induction m with
  | nil => simp [mapInsert, mapLookup, mapKeys]
  | cons p rest ih =>
    by_cases hp : p.1 = k
    · simp [mapInsert, mapLookup, mapKeys, hp]
    · rw [mapInsert, if_neg hp, mapKeys, List.map_cons, mapLookup, if_neg hp]
      rw [show (mapInsert rest k v).map Prod.fst = mapKeys (mapInsert rest k v) from rfl, ih]
      by_cases hs : (mapLookup rest k).isSome
      · simp [hs, mapKeys]
      · simp [hs, mapKeys]

theorem mapWF_mapInsert (m : SMap) (k v : String) (h : mapWF m) :
    mapWF (mapInsert m k v) := by
  rw [mapWF, mapKeys_mapInsert]
  by_cases hs : (mapLookup m k).isSome
  · simpa [hs] using h
  · rw [if_neg hs]
    rw [List.nodup_append]
    refine ⟨h, List.nodup_singleton _, ?_⟩
    intro a ha hmem
    simp only [List.mem_singleton] at hmem
    subst hmem
    exact hs ((mapLookup_isSome_iff m a).mpr ha)

theorem mapLookup_mapErase_self (m : SMap) (k : String) :
    mapLookup (mapErase m k) k = none := by
  induction m with
  | nil => simp [mapErase, mapLookup]
  | cons p rest ih =>
    by_cases hp : p.1 = k
    · simp [mapErase, hp, ih]
    · simp [mapErase, mapLookup, hp, ih]

theorem mapLookup_mapErase_ne (m : SMap) (k k2 : String) (h : k2 ≠ k) :
    mapLookup (mapErase m k) k2 = mapLookup m k2 := by
  induction m with
  | nil => simp [mapErase]
  | cons p rest ih =>
    by_cases hp : p.1 = k
    · have hp2 : p.1 ≠ k2 := by rw [hp]; exact Ne.symm h
      simp [mapErase, mapLookup, hp, hp2, Ne.symm h, ih]
    · by_cases hp2 : p.1 = k2
      · simp [mapErase, mapLookup, hp, hp2, h]
      · simp [mapErase, mapLookup, hp, hp2, ih]

theorem mapErase_of_lookup_none (m : SMap) (k : String)
    (h : mapLookup m k = none) : mapErase m k = m := by
  induction m with
  | nil => rfl
  | cons p rest ih =>
    rw [mapLookup] at h
    by_cases hp : p.1 = k
    · simp [hp] at h
    · rw [if_neg hp] at h
      simp [mapErase, hp, ih h]

theorem mem_mapErase (m : SMap) (k : String) (p : String × String)
    (h : p ∈ mapErase m k) : p ∈ m ∧ p.1 ≠ k := by
  induction m with
  | nil => simp [mapErase] at h
  | cons q rest ih =>
    rw [mapErase] at h
    by_cases hq : q.1 = k
    · rw [if_pos hq] at h
      rcases ih h with ⟨h1, h2⟩
      exact ⟨List.mem_cons_of_mem _ h1, h2⟩
    · rw [if_neg hq] at h
      rcases List.mem_cons.mp h with rfl | h1
      · exact ⟨List.mem_cons_self _ _, hq⟩
      · rcases ih h1 with ⟨h2, h3⟩
        exact ⟨List.mem_cons_of_mem _ h2, h3⟩

theorem mem_of_mapLookup_eq_some (m : SMap) (k v : String)
    (h : mapLookup m k = some v) : (k, v) ∈ m := by
  induction m with
  | nil => simp [mapLookup] at h
  | cons p rest ih =>
    rw [mapLookup] at h
    by_cases hp : p.1 = k
    · rw [if_pos hp] at h
      simp only [Option.some.injEq] at h
      exact List.mem_cons.mpr (Or.inl (by rw [← hp, ← h]))
    · rw [if_neg hp] at h
      exact List.mem_cons_of_mem _ (ih h)

theorem mapLookup_mem_of_mem_of_wf (m : SMap) (p : String × String)
    (hwf : mapWF m) (h : p ∈ m) : mapLookup m p.1 = some p.2 := by
  induction m with
  | nil => simp at h
  | cons q rest ih =>
    rw [mapWF, mapKeys, List.map_cons, List.nodup_cons] at hwf
    rcases List.mem_cons.mp h with rfl | h1
    · simp [mapLookup]
    · rw [mapLookup]
      by_cases hq : q.1 = p.1
      · exfalso
        exact hwf.1 (by rw [hq]; exact List.mem_map.mpr ⟨p, h1, rfl⟩)
      · rw [if_neg hq]
        exact ih hwf.2 h1

/-! ### Theorems: index allocation (claim C1 support) -/

theorem gapScan_eq_some (idx : SMap) :
    ∀ (cnt s i : Nat), gapScan idx (List.range' s cnt) = some i →
      s ≤ i ∧ i < s + cnt ∧ mapLookup idx (itoa (Int.ofNat i)) = none ∧
      ∀ j, s ≤ j → j < i → (mapLookup idx (itoa (Int.ofNat j))).isSome := by
  intro cnt
  induction cnt with
  | zero => intro s i h; simp [gapScan, List.range'] at h
  | succ c ih =>
    intro s i h
    rw [List.range'] at h
    rw [gapScan] at h
    split at h
    · next hnone =>
      simp only [Option.some.injEq] at h
      subst h
      refine ⟨le_refl _, by omega, Option.not_isSome_iff_eq_none.mp (by simpa using hnone), ?_⟩
      intro j h1 h2
      omega
    · next hsome =>
      rcases ih (s + 1) i h with ⟨h1, h2, h3, h4⟩
      refine ⟨by omega, by omega, h3, ?_⟩
      intro j hj1 hj2
      by_cases hjs : j = s
      · subst hjs
        rw [Option.isSome_iff_ne_none]
        simpa using hsome
      · exact h4 j (by omega) hj2

theorem gapScan_eq_none (idx : SMap) :
    ∀ (cnt s : Nat), gapScan idx (List.range' s cnt) = none →
      ∀ j, s ≤ j → j < s + cnt → (mapLookup idx (itoa (Int.ofNat j))).isSome := by
  intro cnt
  induction cnt with
  | zero => intro s h j h1 h2; omega
  | succ c ih =>
    intro s h j h1 h2
    rw [List.range'] at h
    rw [gapScan] at h
    split at h
    · exact absurd h (by simp)
    · next hsome =>
      by_cases hjs : j = s
      · subst hjs
        rw [Option.isSome_iff_ne_none]
        simpa using hsome
      · exact ih (s + 1) h j (by omega) (by omega)

/-- If all decimal keys `0..len-1` are present in a duplicate-free map of
length `len`, the key `len` is absent (counting argument). -/
theorem lookup_size_eq_none_of_full (idx : SMap) (hwf : mapWF idx)
    (hall : ∀ j, j < mapSize idx → (mapLookup idx (itoa (Int.ofNat j))).isSome) :
    mapLookup idx (itoa (Int.ofNat (mapSize idx))) = none := by
  set n := mapSize idx with hn
  have hinj : Function.Injective (fun j : Nat => itoa (Int.ofNat j)) := by
    intro a b hab
    have := itoa_injective hab
    exact Int.ofNat.inj this
  set L : List String := (List.range n).map (fun j => itoa (Int.ofNat j)) with hL
  have hLnodup : L.Nodup := (List.nodup_range n).map hinj
  have hLsub : ∀ x ∈ L, x ∈ mapKeys idx := by
    intro x hx
    rcases List.mem_map.mp hx with ⟨j, hj, rfl⟩
    exact (mapLookup_isSome_iff idx _).mp (hall j (List.mem_range.mp hj))
  have hLlen : L.length = n := by simp [hL]
  have hKlen : (mapKeys idx).length = n := by simp [mapKeys, mapSize, hn]
  have hsub : L.toFinset ⊆ (mapKeys idx).toFinset := by
    intro x hx
    exact List.mem_toFinset.mpr (hLsub x (List.mem_toFinset.mp hx))
  have hcard1 : L.toFinset.card = n := by
    rw [List.toFinset_card_of_nodup hLnodup, hLlen]
  have hcard2 : (mapKeys idx).toFinset.card = n := by
    rw [List.toFinset_card_of_nodup hwf, hKlen]
  have heq : L.toFinset = (mapKeys idx).toFinset :=
    Finset.eq_of_subset_of_card_le hsub (by omega)
  rw [← Option.not_isSome_iff_eq_none]
  intro hsome
  have hmem : itoa (Int.ofNat n) ∈ mapKeys idx := (mapLookup_isSome_iff idx _).mp hsome
  have : itoa (Int.ofNat n) ∈ L := by
    rw [← List.mem_toFinset, ← heq] at hmem
    exact List.mem_toFinset.mp hmem
  rcases List.mem_map.mp this with ⟨j, hj, hje⟩
  have := hinj hje
  have := List.mem_range.mp hj
  omega

theorem allocateIndex_spec (idx : SMap) (hwf : mapWF idx) :
    mapLookup idx (itoa (Int.ofNat (allocateIndex idx))) = none
    ∧ (∀ j : Nat, j < allocateIndex idx →
        (mapLookup idx (itoa (Int.ofNat j))).isSome)
    ∧ allocateIndex idx ≤ mapSize idx := by
  rcases hg : gapScan idx (List.range (mapSize idx)) with _ | i
  · have ha : allocateIndex idx = mapSize idx := by rw [allocateIndex, hg]
    rw [List.range_eq_range'] at hg
    have hfull := gapScan_eq_none idx (mapSize idx) 0 hg
    rw [ha]
    refine ⟨lookup_size_eq_none_of_full idx hwf
      (fun j hj => hfull j (by omega) (by omega)), ?_, le_refl _⟩
    intro j hj
    exact hfull j (by omega) (by omega)
  · have ha : allocateIndex idx = i := by rw [allocateIndex, hg]
    rw [List.range_eq_range'] at hg
    rcases gapScan_eq_some idx (mapSize idx) 0 i hg with ⟨_, h2, h3, h4⟩
    rw [ha]
    exact ⟨h3, fun j hj => h4 j (by omega) hj, by omega⟩

/-! ### Theorems: creation pass -/

theorem createLoop_skip_all (env : Env) (t : Template) :
    ∀ (refs : List OwnerRef) (s : MStatus) (rq : Bool) (tr : Trace),
      (∀ r ∈ refs, parseOK r.apiVersion = true) →
      (∀ r ∈ refs, isMatchingRef r = true → (mapLookup s.dataNames r.name).isSome) →
      createLoop env t refs s rq tr = (s, rq, tr, none) := by
  intro refs
  induction refs with
  | nil => intro s rq tr _ _; rfl
  | cons r rest ih =>
    intro s rq tr hparse hdone
    have hp := hparse r (List.mem_cons_self _ _)
    rw [parseOK] at hp
    rcases hgv : parseGroupVersion r.apiVersion with e | gv
    · rw [hgv] at hp; simp at hp
    · simp only [createLoop, hgv]
      by_cases hm : r.kind ≠ "Metal3Machine" ∨ gv.group ≠ metal3Group
      · rw [if_pos hm]
        exact ih s rq tr (fun x hx => hparse x (List.mem_cons_of_mem _ hx))
          (fun x hx => hdone x (List.mem_cons_of_mem _ hx))
      · rw [if_neg hm]
        push_neg at hm
        have hmatch : isMatchingRef r = true := by
          rw [isMatchingRef, hgv]
          simp [hm.1, hm.2]
        have hs := hdone r (List.mem_cons_self _ _) hmatch
        rw [if_pos hs]
        exact ih s rq tr (fun x hx => hparse x (List.mem_cons_of_mem _ hx))
          (fun x hx => hdone x (List.mem_cons_of_mem _ hx))

theorem createLoop_no_hard_error (env : Env) (t : Template)
    (hresolve : ∀ n e, env.resolve n ≠ ResolveRes.err e)
    (hcreate : ∀ d e, env.create d ≠ CreateRes.err e)
    (hlist : ∀ e, env.listResult ≠ Except.error e)
    (hlabel : (labelLookup t.labels clusterLabelName).isSome) :
    ∀ (refs : List OwnerRef) (s : MStatus) (rq : Bool) (tr : Trace),
      (∀ r ∈ refs, parseOK r.apiVersion = true) →
      (createLoop env t refs s rq tr).2.2.2 = none
      ∧ tr.recreates ≤ (createLoop env t refs s rq tr).2.2.1.recreates
      ∧ ((createLoop env t refs s rq tr).2.1 = true ↔
          (rq = true ∨ tr.recreates < (createLoop env t refs s rq tr).2.2.1.recreates)) := by
  intro refs
  induction refs with
  | nil =>
    intro s rq tr _
    refine ⟨rfl, le_refl _, ?_⟩
    simp [createLoop]
  | cons r rest ih =>
    intro s rq tr hparse
    have hrest : ∀ x ∈ rest, parseOK x.apiVersion = true :=
      fun x hx => hparse x (List.mem_cons_of_mem _ hx)
    have hp := hparse r (List.mem_cons_self _ _)
    rw [parseOK] at hp
    rcases hgv : parseGroupVersion r.apiVersion with e | gv
    · rw [hgv] at hp; simp at hp
    · simp only [createLoop, hgv]
      by_cases hm : r.kind ≠ "Metal3Machine" ∨ gv.group ≠ metal3Group
      · rw [if_pos hm]
        exact ih s rq tr hrest
      · rw [if_neg hm]
        by_cases hentry : (mapLookup s.dataNames r.name).isSome
        · rw [if_pos hentry]
          exact ih s rq tr hrest
        · rw [if_neg hentry]
          rcases hres : env.resolve r.name with _ | _ | e
          · rcases hlab : labelLookup t.labels clusterLabelName with _ | c
            · rw [hlab] at hlabel; simp at hlabel
            · simp only []
              rcases hcr : env.create (buildDataObject t r c
                  (Int.ofNat (allocateIndex s.indexes))
                  (t.name ++ "-" ++ itoa (Int.ofNat (allocateIndex s.indexes)))) with _ | _ | e
              · exact ih _ _ _ hrest
              · rcases hEL : env.listResult with e | objs
                · exact absurd hEL (hlist e)
                · simp only [recreateStatusCore, hEL]
                  refine ⟨(ih _ _ _ hrest).1, ?_, ?_⟩
                  · exact le_trans (by simp) (ih _ _ _ hrest).2.1
                  · rw [(ih _ _ _ hrest).2.2]
                    refine ⟨fun _ => Or.inr (lt_of_lt_of_le (by simp) (ih _ _ _ hrest).2.1),
                      fun _ => Or.inl rfl⟩
              · exact absurd hcr (hcreate _ e)
          · exact ih s rq tr hrest
          · exact absurd hres (hresolve _ e)

/-! ### Theorems: status reconstruction -/

theorem mem_mapKeys_mapInsert (m : SMap) (k v k2 : String)
    (h : k2 ∈ mapKeys (mapInsert m k v)) : k2 ∈ mapKeys m ∨ k2 = k := by
  rw [mapKeys_mapInsert] at h
  by_cases hs : (mapLookup m k).isSome
  · rw [if_pos hs] at h
    exact Or.inl h
  · rw [if_neg hs] at h
    rcases List.mem_append.mp h with h1 | h1
    · exact Or.inl h1
    · exact Or.inr (List.mem_singleton.mp h1)

theorem recreateLoop_indexes_stable (tplName : String) :
    ∀ (objs : List Metal3Data) (idx dn : SMap) (k : String),
      (∀ x ∈ objs, backRefs tplName x = true → itoa x.index ≠ k) →
      mapLookup (recreateLoop tplName objs idx dn).1 k = mapLookup idx k := by
  intro objs
  induction objs with
  | nil => intro idx dn k _; rfl
  | cons x rest ih =>
    intro idx dn k h
    rw [recreateLoop]
    by_cases hb : backRefs tplName x = true
    · rw [if_pos hb]
      rw [ih _ _ _ (fun y hy hby => h y (List.mem_cons_of_mem _ hy) hby)]
      exact mapLookup_mapInsert_ne _ _ _ _
        (Ne.symm (h x (List.mem_cons_self _ _) hb))
    · rw [if_neg hb]
      exact ih _ _ _ (fun y hy hby => h y (List.mem_cons_of_mem _ hy) hby)

theorem recreateLoop_dataNames_persist (tplName : String) :
    ∀ (objs : List Metal3Data) (idx dn : SMap) (k v : String),
      mapLookup dn k = some v →
      (∀ x ∈ objs, backRefs tplName x = true → recordedMachineName x = k →
        x.name = v) →
      mapLookup (recreateLoop tplName objs idx dn).2 k = some v := by
  intro objs
  induction objs with
  | nil => intro idx dn k v hv _; exact hv
  | cons x rest ih =>
    intro idx dn k v hv h
    rw [recreateLoop]
    by_cases hb : backRefs tplName x = true
    · rw [if_pos hb]
      by_cases hk : recordedMachineName x = k
      · refine ih _ _ _ _ ?_ (fun y hy hby => h y (List.mem_cons_of_mem _ hy) hby)
        rw [hk, mapLookup_mapInsert_self]
        rw [h x (List.mem_cons_self _ _) hb hk]
      · refine ih _ _ _ _ ?_ (fun y hy hby => h y (List.mem_cons_of_mem _ hy) hby)
        rw [mapLookup_mapInsert_ne _ _ _ _ (Ne.symm hk)]
        exact hv
    · rw [if_neg hb]
      exact ih _ _ _ _ hv (fun y hy hby => h y (List.mem_cons_of_mem _ hy) hby)

theorem recreateLoop_indexes_lookup (tplName : String) :
    ∀ (objs : List Metal3Data) (idx dn : SMap) (d : Metal3Data),
      d ∈ objs → backRefs tplName d = true →
      ((objs.filter (fun x => backRefs tplName x)).map (fun x => itoa x.index)).Nodup →
      mapLookup (recreateLoop tplName objs idx dn).1 (itoa d.index)
        = some (recordedMachineName d) := by
  intro objs
  induction objs with
  | nil => intro idx dn d hd; simp at hd
  | cons x rest ih =>
    intro idx dn d hd hbd hnd
    by_cases hb : backRefs tplName x = true
    · rw [List.filter_cons_of_pos (by simpa using hb), List.map_cons,
        List.nodup_cons] at hnd
      rw [recreateLoop, if_pos hb]
      rcases List.mem_cons.mp hd with rfl | hd1
      · rw [recreateLoop_indexes_stable tplName rest _ _ _ ?_]
        · exact mapLookup_mapInsert_self _ _ _
        · intro y hy hby hk
          apply hnd.1
          rw [← hk]
          exact List.mem_map.mpr ⟨y, List.mem_filter.mpr ⟨hy, by simpa using hby⟩, rfl⟩
      · exact ih _ _ d hd1 hbd hnd.2
    · rw [List.filter_cons_of_neg (by simpa using hb)] at hnd
      rw [recreateLoop, if_neg hb]
      rcases List.mem_cons.mp hd with rfl | hd1
      · exact absurd hbd hb
      · exact ih _ _ d hd1 hbd hnd

theorem recreateLoop_dataNames_lookup (tplName : String) :
    ∀ (objs : List Metal3Data) (idx dn : SMap) (d : Metal3Data),
      d ∈ objs → backRefs tplName d = true →
      (∀ x ∈ objs, backRefs tplName x = true →
        recordedMachineName x = recordedMachineName d → x.name = d.name) →
      mapLookup (recreateLoop tplName objs idx dn).2 (recordedMachineName d)
        = some d.name := by
  intro objs
  induction objs with
  | nil => intro idx dn d hd; simp at hd
  | cons x rest ih =>
    intro idx dn d hd hbd huniq
    by_cases hb : backRefs tplName x = true
    · rw [recreateLoop, if_pos hb]
      rcases List.mem_cons.mp hd with rfl | hd1
      · refine recreateLoop_dataNames_persist tplName rest _ _ _ _ ?_ ?_
        · exact mapLookup_mapInsert_self _ _ _
        · intro y hy hby hk
          exact huniq y (List.mem_cons_of_mem _ hy) hby hk
      · exact ih _ _ d hd1 hbd
          (fun y hy hby => huniq y (List.mem_cons_of_mem _ hy) hby)
    · rw [recreateLoop, if_neg hb]
      rcases List.mem_cons.mp hd with rfl | hd1
      · exact absurd hbd hb
      · exact ih _ _ d hd1 hbd
          (fun y hy hby => huniq y (List.mem_cons_of_mem _ hy) hby)

theorem recreateLoop_keys_sub (tplName : String) :
    ∀ (objs : List Metal3Data) (idx dn : SMap),
      (∀ k ∈ mapKeys (recreateLoop tplName objs idx dn).1,
        k ∈ mapKeys idx ∨ ∃ d ∈ objs, backRefs tplName d = true ∧ k = itoa d.index)
      ∧ (∀ k ∈ mapKeys (recreateLoop tplName objs idx dn).2,
        k ∈ mapKeys dn ∨ ∃ d ∈ objs, backRefs tplName d = true
          ∧ k = recordedMachineName d) := by
  intro objs
  induction objs with
  | nil => intro idx dn; exact ⟨fun k hk => Or.inl hk, fun k hk => Or.inl hk⟩
  | cons x rest ih =>
    intro idx dn
    by_cases hb : backRefs tplName x = true
    · rw [recreateLoop, if_pos hb]
      constructor
      · intro k hk
        rcases (ih _ _).1 k hk with h1 | ⟨d, hd, hbd, hkd⟩
        · rcases mem_mapKeys_mapInsert _ _ _ _ h1 with h2 | h2
          · exact Or.inl h2
          · exact Or.inr ⟨x, List.mem_cons_self _ _, hb, h2⟩
        · exact Or.inr ⟨d, List.mem_cons_of_mem _ hd, hbd, hkd⟩
      · intro k hk
        rcases (ih _ _).2 k hk with h1 | ⟨d, hd, hbd, hkd⟩
        · rcases mem_mapKeys_mapInsert _ _ _ _ h1 with h2 | h2
          · exact Or.inl h2
          · exact Or.inr ⟨x, List.mem_cons_self _ _, hb, h2⟩
        · exact Or.inr ⟨d, List.mem_cons_of_mem _ hd, hbd, hkd⟩
    · rw [recreateLoop, if_neg hb]
      constructor
      · intro k hk
        rcases (ih _ _).1 k hk with h1 | ⟨d, hd, hbd, hkd⟩
        · exact Or.inl h1
        · exact Or.inr ⟨d, List.mem_cons_of_mem _ hd, hbd, hkd⟩
      · intro k hk
        rcases (ih _ _).2 k hk with h1 | ⟨d, hd, hbd, hkd⟩
        · exact Or.inl h1
        · exact Or.inr ⟨d, List.mem_cons_of_mem _ hd, hbd, hkd⟩

/-! ### Theorems: creation loop decomposition -/

theorem createLoop_append_ok (env : Env) (t : Template) :
    ∀ (l1 l2 : List OwnerRef) (s : MStatus) (rq : Bool) (tr : Trace),
      (createLoop env t l1 s rq tr).2.2.2 = none →
      createLoop env t (l1 ++ l2) s rq tr
        = createLoop env t l2 (createLoop env t l1 s rq tr).1
            (createLoop env t l1 s rq tr).2.1 (createLoop env t l1 s rq tr).2.2.1 := by
  intro l1
  induction l1 with
  | nil => intro l2 s rq tr _; rfl
  | cons r l1 ihl =>
    intro l2 s rq tr hnone
    rw [List.cons_append]
    have hone : ((createLoop env t [r] s rq tr).2.2.2.isSome
          ∧ ∀ tail : List OwnerRef,
            createLoop env t (r :: tail) s rq tr = createLoop env t [r] s rq tr)
        ∨ (∀ tail : List OwnerRef,
          createLoop env t (r :: tail) s rq tr
            = createLoop env t tail (createLoop env t [r] s rq tr).1
                (createLoop env t [r] s rq tr).2.1
                (createLoop env t [r] s rq tr).2.2.1) := by
      rcases hgv : parseGroupVersion r.apiVersion with e | gv
      · exact Or.inl ⟨by simp [createLoop, hgv],
          fun tail => by simp only [createLoop, hgv]⟩
      · by_cases hm : r.kind ≠ "Metal3Machine" ∨ gv.group ≠ metal3Group
        · exact Or.inr (fun tail => by
            simp only [createLoop, hgv, if_pos hm])
        · by_cases hentry : (mapLookup s.dataNames r.name).isSome
          · exact Or.inr (fun tail => by
              simp only [createLoop, hgv, if_neg hm, if_pos hentry])
          · rcases hres : env.resolve r.name with _ | _ | e
            · rcases hlab : labelLookup t.labels clusterLabelName with _ | c
              · exact Or.inl ⟨by simp [createLoop, hgv, if_neg hm, if_neg hentry, hres, hlab],
                  fun tail => by
                    simp only [createLoop, hgv, if_neg hm, if_neg hentry, hres, hlab]⟩
              · rcases hcr : env.create (buildDataObject t r c
                    (Int.ofNat (allocateIndex s.indexes))
                    (t.name ++ "-" ++ itoa (Int.ofNat (allocateIndex s.indexes))))
                    with _ | _ | e
                · exact Or.inr (fun tail => by
                    simp only [createLoop, hgv, if_neg hm, if_neg hentry, hres, hlab, hcr])
                · rcases hEL : env.listResult with e | objs
                  · exact Or.inl ⟨by
                      simp only [createLoop, hgv, if_neg hm, if_neg hentry, hres, hlab, hcr,
                        recreateStatusCore, hEL, Option.isSome_some],
                      fun tail => by
                        simp only [createLoop, hgv, if_neg hm, if_neg hentry, hres, hlab,
                          hcr, recreateStatusCore, hEL]⟩
                  · exact Or.inr (fun tail => by
                      simp only [createLoop, hgv, if_neg hm, if_neg hentry, hres, hlab,
                        hcr, recreateStatusCore, hEL])
                · exact Or.inl ⟨by
                    simp only [createLoop, hgv, if_neg hm, if_neg hentry, hres, hlab, hcr,
                      Option.isSome_some],
                    fun tail => by
                      simp only [createLoop, hgv, if_neg hm, if_neg hentry, hres, hlab, hcr]⟩
            · exact Or.inr (fun tail => by
                simp only [createLoop, hgv, if_neg hm, if_neg hentry, hres])
            · exact Or.inl ⟨by simp [createLoop, hgv, if_neg hm, if_neg hentry, hres],
                fun tail => by
                  simp only [createLoop, hgv, if_neg hm, if_neg hentry, hres]⟩
    rcases hone with ⟨hsome, hstep⟩ | hstep
    · rw [hstep l1] at hnone
      rw [hnone] at hsome
      simp at hsome
    · rw [hstep l1] at hnone
      rw [hstep (l1 ++ l2), hstep l1]
      exact ihl l2 _ _ _ hnone

theorem createLoop_step_create_err (env : Env) (t : Template) (r : OwnerRef)
    (rest : List OwnerRef) (s : MStatus) (rq : Bool) (tr : Trace)
    (gv : GroupVersion) (c : String) (e : GoErr)
    (hgv : parseGroupVersion r.apiVersion = Except.ok gv)
    (hkind : r.kind = "Metal3Machine") (hgrp : gv.group = metal3Group)
    (hentry : mapLookup s.dataNames r.name = none)
    (hres : env.resolve r.name = ResolveRes.found)
    (hlab : labelLookup t.labels clusterLabelName = some c)
    (hcr : env.create (buildDataObject t r c (Int.ofNat (allocateIndex s.indexes))
      (t.name ++ "-" ++ itoa (Int.ofNat (allocateIndex s.indexes)))) = CreateRes.err e) :
    createLoop env t (r :: rest) s rq tr
      = ({ s with
            indexes := mapInsert s.indexes
              (itoa (Int.ofNat (allocateIndex s.indexes))) r.name
            dataNames := mapInsert s.dataNames r.name
              (t.name ++ "-" ++ itoa (Int.ofNat (allocateIndex s.indexes))) },
          rq,
          { tr with attempts := tr.attempts
              ++ [t.name ++ "-" ++ itoa (Int.ofNat (allocateIndex s.indexes))] },
          some e) := by
  simp only [createLoop, hgv]
  rw [if_neg (by simp [hkind, hgrp])]
  rw [if_neg (by simp [hentry])]
  rw [hres, hlab]
  simp only [hcr]

/-! ### Theorems: deletion pass -/

theorem mem_mapErase_of_mem (m : SMap) (k : String) (p : String × String)
    (hp : p ∈ m) (hne : p.1 ≠ k) : p ∈ mapErase m k := by
  induction m with
  | nil => simp at hp
  | cons q rest ih =>
    rw [mapErase]
    rcases List.mem_cons.mp hp with rfl | hp1
    · rw [if_neg hne]
      exact List.mem_cons_self _ _
    · by_cases hq : q.1 = k
      · rw [if_pos hq]
        exact ih hp1
      · rw [if_neg hq]
        exact List.mem_cons_of_mem _ (ih hp1)

theorem mapErase_sublist (m : SMap) (k : String) : (mapErase m k).Sublist m := by
  induction m with
  | nil => exact List.Sublist.refl _
  | cons q rest ih =>
    rw [mapErase]
    by_cases hq : q.1 = k
    · rw [if_pos hq]
      exact ih.cons _
    · rw [if_neg hq]
      exact ih.cons₂ _

theorem mapWF_mapErase (m : SMap) (k : String) (h : mapWF m) :
    mapWF (mapErase m k) :=
  ((mapErase_sublist m k).map Prod.fst).nodup h

theorem values_mapErase_nodup (m : SMap) (k : String)
    (h : (mapValues m).Nodup) : (mapValues (mapErase m k)).Nodup :=
  ((mapErase_sublist m k).map Prod.snd).nodup h

theorem foldl_lastIndex_of_no_match (mn : String) :
    ∀ (m : SMap) (acc : String), (∀ q ∈ m, q.2 ≠ mn) →
      m.foldl (fun acc p => if p.2 == mn then p.1 else acc) acc = acc := by
  intro m
  induction m with
  | nil => intro acc _; rfl
  | cons q rest ih =>
    intro acc h
    rw [List.foldl_cons]
    rw [show ((q.2 == mn)) = false from by
      simp [h q (List.mem_cons_self _ _)]]
    simp only [Bool.false_eq_true, if_false]
    exact ih acc (fun x hx => h x (List.mem_cons_of_mem _ hx))

theorem lastIndexWithValue_spec (mn k0 : String) :
    ∀ (m : SMap), (mapValues m).Nodup → (k0, mn) ∈ m →
      lastIndexWithValue m mn = k0 := by
  intro m
  induction m with
  | nil => intro _ hm; simp at hm
  | cons q rest ih =>
    intro hnd hm
    rw [mapValues, List.map_cons, List.nodup_cons] at hnd
    rw [lastIndexWithValue, List.foldl_cons]
    by_cases hq : q.2 = mn
    · rcases List.mem_cons.mp hm with rfl | hm1
      · rw [show ((mn == mn)) = true from by simp]
        simp only [if_true]
        exact foldl_lastIndex_of_no_match mn rest k0
          (fun x hx hx2 => hnd.1 (hx2 ▸ List.mem_map.mpr ⟨x, hx, rfl⟩))
      · exfalso
        apply hnd.1
        rw [hq]
        exact List.mem_map.mpr ⟨(k0, mn), hm1, rfl⟩
    · rw [show ((q.2 == mn)) = false from by simp [hq]]
      simp only [Bool.false_eq_true, if_false]
      rcases List.mem_cons.mp hm with rfl | hm1
      · simp at hq
      · exact ih hnd.2 hm1

theorem not_mem_values_mapErase (m : SMap) (k0 mn : String)
    (hnd : (mapValues m).Nodup) (hm : (k0, mn) ∈ m) :
    mn ∉ mapValues (mapErase m k0) := by
  intro hmem
  rcases List.mem_map.mp hmem with ⟨q, hq, hq2⟩
  rcases mem_mapErase (m := m) (k := k0) q hq with ⟨hq3, hq4⟩
  have : q = (k0, mn) :=
    List.inj_on_of_nodup_map hnd hq3 hm (by rw [hq2])
  rw [this] at hq4
  exact hq4 rfl

theorem mem_values_mapErase_of_ne (m : SMap) (k0 mn : String)
    (hwf : mapWF m) (hm : (k0, mn) ∈ m) (v : String)
    (hv : v ∈ mapValues m) (hne : v ≠ mn) :
    v ∈ mapValues (mapErase m k0) := by
  rcases List.mem_map.mp hv with ⟨q, hq, hq2⟩
  have hqk : q.1 ≠ k0 := by
    intro hk
    have : q = (k0, mn) :=
      List.inj_on_of_nodup_map hwf hq hm (by rw [hk])
    apply hne
    rw [← hq2, this]
  exact List.mem_map.mpr ⟨q, mem_mapErase_of_mem m k0 q hq hqk, hq2⟩

theorem checkPresent_isOk (mn : String) :
    ∀ (refs : List OwnerRef), (∀ r ∈ refs, parseOK r.apiVersion = true) →
      ∃ b, checkPresent refs mn = Except.ok b := by
  intro refs
  induction refs with
  | nil => intro _; exact ⟨false, rfl⟩
  | cons r rest ih =>
    intro hparse
    have hp := hparse r (List.mem_cons_self _ _)
    rw [parseOK] at hp
    rcases hgv : parseGroupVersion r.apiVersion with e | gv
    · rw [hgv] at hp; simp at hp
    · simp only [checkPresent, hgv]
      by_cases hm : r.kind ≠ "Metal3Machine" ∨ gv.group ≠ metal3Group
      · rw [if_pos hm]
        exact ih (fun x hx => hparse x (List.mem_cons_of_mem _ hx))
      · rw [if_neg hm]
        by_cases hn : mn = r.name
        · rw [if_pos hn]
          exact ⟨true, rfl⟩
        · rw [if_neg hn]
          exact ih (fun x hx => hparse x (List.mem_cons_of_mem _ hx))

theorem mem_keys_mapErase (m : SMap) (k0 k : String)
    (h : k ∈ mapKeys (mapErase m k0)) : k ∈ mapKeys m ∧ k ≠ k0 := by
  rcases List.mem_map.mp h with ⟨q, hq, hq2⟩
  rcases mem_mapErase m k0 q hq with ⟨h1, h2⟩
  exact ⟨List.mem_map.mpr ⟨q, h1, hq2⟩, by rw [← hq2]; exact h2⟩

theorem mem_keys_mapErase_of_ne (m : SMap) (k0 k : String)
    (h : k ∈ mapKeys m) (hne : k ≠ k0) : k ∈ mapKeys (mapErase m k0) := by
  rcases List.mem_map.mp h with ⟨q, hq, hq2⟩
  exact List.mem_map.mpr ⟨q, mem_mapErase_of_mem m k0 q hq (by rw [hq2]; exact hne), hq2⟩

theorem mem_values_mapErase (m : SMap) (k0 v : String)
    (h : v ∈ mapValues (mapErase m k0)) : v ∈ mapValues m :=
  ((mapErase_sublist m k0).map Prod.snd).subset h

/-- One removal of the deletion pass preserves the status invariants:
with duplicate-free keys and index values, erasing the index entry found
by the value scan together with the `dataNames` entry keeps the two maps
mutually consistent. -/
theorem erase_step_invariant (idx dn : SMap) (mn : String)
    (hwfI : mapWF idx) (hwfD : mapWF dn) (hvals : (mapValues idx).Nodup)
    (hdir1 : ∀ v ∈ mapValues idx, v ∈ mapKeys dn)
    (hdir2 : ∀ k ∈ mapKeys dn, k ∈ mapValues idx)
    (hmn : mn ∈ mapKeys dn) :
    mapWF (mapErase idx (lastIndexWithValue idx mn))
    ∧ mapWF (mapErase dn mn)
    ∧ (mapValues (mapErase idx (lastIndexWithValue idx mn))).Nodup
    ∧ (∀ v ∈ mapValues (mapErase idx (lastIndexWithValue idx mn)),
        v ∈ mapKeys (mapErase dn mn))
    ∧ (∀ k ∈ mapKeys (mapErase dn mn),
        k ∈ mapValues (mapErase idx (lastIndexWithValue idx mn))) := by
  have hmv : mn ∈ mapValues idx := hdir2 mn hmn
  rcases List.mem_map.mp hmv with ⟨q, hq, hq2⟩
  have hqmem : (q.1, mn) ∈ idx := by
    rw [show ((q.1, mn)) = q from by rw [← hq2]]
    exact hq
  have hL : lastIndexWithValue idx mn = q.1 :=
    lastIndexWithValue_spec mn q.1 idx hvals hqmem
  rw [hL]
  refine ⟨mapWF_mapErase idx q.1 hwfI, mapWF_mapErase dn mn hwfD,
    values_mapErase_nodup idx q.1 hvals, ?_, ?_⟩
  · intro v hv
    have hvin : v ∈ mapValues idx := mem_values_mapErase idx q.1 v hv
    have hvne : v ≠ mn := by
      intro hveq
      rw [hveq] at hv
      exact not_mem_values_mapErase idx q.1 mn hvals hqmem hv
    exact mem_keys_mapErase_of_ne dn mn v (hdir1 v hvin) hvne
  · intro k hk
    rcases mem_keys_mapErase dn mn k hk with ⟨h1, h2⟩
    exact mem_values_mapErase_of_ne idx q.1 mn hwfI hqmem k (hdir2 k h1) h2

/-- The deletion loop preserves well-formedness and mutual consistency of
the two maps, for every exit (error or not). -/
theorem deleteLoop_invariant (env : Env) (refs : List OwnerRef) :
    ∀ (ps : List (String × String)) (idx dn : SMap) (tr : Trace),
      mapWF idx → mapWF dn → (mapValues idx).Nodup →
      (∀ v ∈ mapValues idx, v ∈ mapKeys dn) →
      (∀ k ∈ mapKeys dn, k ∈ mapValues idx) →
      (ps.map Prod.fst).Nodup →
      (∀ p ∈ ps, p.1 ∈ mapKeys dn) →
      mapWF (deleteLoop env refs ps idx dn tr).1
      ∧ mapWF (deleteLoop env refs ps idx dn tr).2.1
      ∧ (mapValues (deleteLoop env refs ps idx dn tr).1).Nodup
      ∧ (∀ v ∈ mapValues (deleteLoop env refs ps idx dn tr).1,
          v ∈ mapKeys (deleteLoop env refs ps idx dn tr).2.1)
      ∧ (∀ k ∈ mapKeys (deleteLoop env refs ps idx dn tr).2.1,
          k ∈ mapValues (deleteLoop env refs ps idx dn tr).1) := by
  intro ps
  induction ps with
  | nil =>
    intro idx dn tr hwfI hwfD hvals hdir1 hdir2 _ _
    exact ⟨hwfI, hwfD, hvals, hdir1, hdir2⟩
  | cons p rest ih =>
    rcases p with ⟨mn, dname⟩
    intro idx dn tr hwfI hwfD hvals hdir1 hdir2 hps1 hps2
    rw [List.map_cons, List.nodup_cons] at hps1
    have hmn : mn ∈ mapKeys dn := hps2 (mn, dname) (List.mem_cons_self _ _)
    have hstep := erase_step_invariant idx dn mn hwfI hwfD hvals hdir1 hdir2 hmn
    have hrest2 : ∀ p ∈ rest, p.1 ∈ mapKeys (mapErase dn mn) := by
      intro p hp
      refine mem_keys_mapErase_of_ne dn mn p.1
        (hps2 p (List.mem_cons_of_mem _ hp)) ?_
      intro he
      exact hps1.1 (he ▸ List.mem_map.mpr ⟨p, hp, rfl⟩)
    rcases hcp : checkPresent refs mn with e | b
    · simp only [deleteLoop, hcp]
      exact ⟨hwfI, hwfD, hvals, hdir1, hdir2⟩
    · rcases b with _ | _
      · simp only [deleteLoop, hcp]
        rcases hget : env.get dname with d | _ | e
        · simp only [hget]
          rcases hdel : env.delete dname with _ | _ | e
          · simp only [hdel]
            exact ih _ _ _ hstep.1 hstep.2.1 hstep.2.2.1 hstep.2.2.2.1
              hstep.2.2.2.2 hps1.2 hrest2
          · simp only [hdel]
            exact ih _ _ _ hstep.1 hstep.2.1 hstep.2.2.1 hstep.2.2.2.1
              hstep.2.2.2.2 hps1.2 hrest2
          · simp only [hdel]
            exact ⟨hwfI, hwfD, hvals, hdir1, hdir2⟩
        · simp only [hget]
          exact ih _ _ _ hstep.1 hstep.2.1 hstep.2.2.1 hstep.2.2.2.1
            hstep.2.2.2.2 hps1.2 hrest2
        · simp only [hget]
          exact ⟨hwfI, hwfD, hvals, hdir1, hdir2⟩
      · simp only [deleteLoop, hcp]
        exact ih _ _ _ hwfI hwfD hvals hdir1 hdir2 hps1.2 (fun p hp =>
          hps2 p (List.mem_cons_of_mem _ hp))

theorem mapLookup_mapErase_none (m : SMap) (k0 k : String)
    (h : mapLookup m k = none) : mapLookup (mapErase m k0) k = none := by
  by_cases hk : k = k0
  · rw [hk]
    exact mapLookup_mapErase_self m k0
  · rw [mapLookup_mapErase_ne m k0 k hk]
    exact h

/-- Once a key is absent from `dataNames` and a value absent from
`indexes`, the deletion loop (which only erases) keeps them absent. -/
theorem deleteLoop_stays_removed (env : Env) (refs : List OwnerRef) :
    ∀ (ps : List (String × String)) (idx dn : SMap) (tr : Trace) (k : String),
      mapLookup dn k = none → k ∉ mapValues idx →
      mapLookup (deleteLoop env refs ps idx dn tr).2.1 k = none
      ∧ k ∉ mapValues (deleteLoop env refs ps idx dn tr).1 := by
  intro ps
  induction ps with
  | nil => intro idx dn tr k h1 h2; exact ⟨h1, h2⟩
  | cons p rest ih =>
    rcases p with ⟨mn, dname⟩
    intro idx dn tr k h1 h2
    rcases hcp : checkPresent refs mn with e | b
    · simp only [deleteLoop, hcp]
      exact ⟨h1, h2⟩
    · rcases b with _ | _
      · simp only [deleteLoop, hcp]
        rcases hget : env.get dname with d | _ | e
        · simp only [hget]
          rcases hdel : env.delete dname with _ | _ | e
          · simp only [hdel]
            exact ih _ _ _ k (mapLookup_mapErase_none dn mn k h1)
              (fun hm => h2 (mem_values_mapErase idx _ k hm))
          · simp only [hdel]
            exact ih _ _ _ k (mapLookup_mapErase_none dn mn k h1)
              (fun hm => h2 (mem_values_mapErase idx _ k hm))
          · simp only [hdel]
            exact ⟨h1, h2⟩
        · simp only [hget]
          exact ih _ _ _ k (mapLookup_mapErase_none dn mn k h1)
            (fun hm => h2 (mem_values_mapErase idx _ k hm))
        · simp only [hget]
          exact ⟨h1, h2⟩
      · simp only [deleteLoop, hcp]
        exact ih _ _ _ k h1 h2

/-- With parseable references and a client that never returns hard errors
on get or delete, the deletion loop finishes without error and never
writes the timestamp. -/
theorem deleteLoop_no_error (env : Env) (refs : List OwnerRef)
    (hparse : ∀ r ∈ refs, parseOK r.apiVersion = true)
    (hget : ∀ n e, env.get n ≠ GetRes.err e)
    (hdel : ∀ n e, env.delete n ≠ DeleteRes.err e) :
    ∀ (ps : List (String × String)) (idx dn : SMap) (tr : Trace),
      (deleteLoop env refs ps idx dn tr).2.2.2 = none
      ∧ (deleteLoop env refs ps idx dn tr).2.2.1.tsWrites = tr.tsWrites := by
  intro ps
  induction ps with
  | nil => intro idx dn tr; exact ⟨rfl, rfl⟩
  | cons p rest ih =>
    rcases p with ⟨mn, dname⟩
    intro idx dn tr
    rcases checkPresent_isOk mn refs hparse with ⟨b, hcp⟩
    rcases b with _ | _
    · simp only [deleteLoop, hcp]
      rcases hg : env.get dname with d | _ | e
      · rcases hd : env.delete dname with _ | _ | e
        · simp only [hg, hd]
          exact ih _ _ _
        · simp only [hg, hd]
          exact ih _ _ _
        · exact absurd hd (hdel _ e)
      · simp only [hg]
        exact ih _ _ _
      · exact absurd hg (hget _ e)
    · simp only [deleteLoop, hcp]
      exact ih _ _ _

/-- Every `dataNames` entry whose owner is absent from the matching owner
references is removed by the deletion loop: afterwards the owner has no
`dataNames` binding and no longer appears as a value of `indexes`
(requires duplicate-free index values; the client must not return hard
errors). -/
theorem deleteLoop_removes (env : Env) (refs : List OwnerRef)
    (hparse : ∀ r ∈ refs, parseOK r.apiVersion = true)
    (hget : ∀ n e, env.get n ≠ GetRes.err e)
    (hdel : ∀ n e, env.delete n ≠ DeleteRes.err e) :
    ∀ (ps : List (String × String)) (idx dn : SMap) (tr : Trace),
      (mapValues idx).Nodup →
      ∀ p ∈ ps, checkPresent refs p.1 = Except.ok false →
        mapLookup (deleteLoop env refs ps idx dn tr).2.1 p.1 = none
        ∧ p.1 ∉ mapValues (deleteLoop env refs ps idx dn tr).1 := by
  intro ps
  induction ps with
  | nil => intro idx dn tr _ p hp; simp at hp
  | cons q rest ih =>
    rcases q with ⟨mn, dname⟩
    intro idx dn tr hvals p hp hcpp
    rcases List.mem_cons.mp hp with hpq | hp1
    · -- the pair itself is processed now
      have hcp : checkPresent refs mn = Except.ok false := by
        rw [show mn = p.1 from by rw [hpq]]
        exact hcpp
      have hremoved : ∀ idx2 : SMap, idx2 = mapErase idx (lastIndexWithValue idx mn) →
          mn ∉ mapValues idx2 := by
        intro idx2 h2
        subst h2
        by_cases hmv : mn ∈ mapValues idx
        · rcases List.mem_map.mp hmv with ⟨w, hw, hw2⟩
          have hwmem : (w.1, mn) ∈ idx := by
            rw [show ((w.1, mn)) = w from by rw [← hw2]]
            exact hw
          rw [lastIndexWithValue_spec mn w.1 idx hvals hwmem]
          exact not_mem_values_mapErase idx w.1 mn hvals hwmem
        · intro hm
          exact hmv (mem_values_mapErase idx _ mn hm)
      have hafter : ∀ (tr2 : Trace),
          mapLookup (deleteLoop env refs rest
              (mapErase idx (lastIndexWithValue idx mn)) (mapErase dn mn) tr2).2.1 mn
            = none
          ∧ mn ∉ mapValues (deleteLoop env refs rest
              (mapErase idx (lastIndexWithValue idx mn)) (mapErase dn mn) tr2).1 :=
        fun tr2 => deleteLoop_stays_removed env refs rest _ _ tr2 mn
          (mapLookup_mapErase_self dn mn) (hremoved _ rfl)
      rw [show p.1 = mn from by rw [hpq]]
      simp only [deleteLoop, hcp]
      rcases hg : env.get dname with d | _ | e
      · rcases hd : env.delete dname with _ | _ | e
        · simp only [hg, hd]
          exact hafter _
        · simp only [hg, hd]
          exact hafter _
        · exact absurd hd (hdel _ e)
      · simp only [hg]
        exact hafter _
      · exact absurd hg (hget _ e)
    · -- the pair comes later; process the head first
      rcases checkPresent_isOk mn refs hparse with ⟨b, hcp⟩
      rcases b with _ | _
      · simp only [deleteLoop, hcp]
        rcases hg : env.get dname with d | _ | e
        · rcases hd : env.delete dname with _ | _ | e
          · simp only [hg, hd]
            exact ih _ _ _ (values_mapErase_nodup idx _ hvals) p hp1 hcpp
          · simp only [hg, hd]
            exact ih _ _ _ (values_mapErase_nodup idx _ hvals) p hp1 hcpp
          · exact absurd hd (hdel _ e)
        · simp only [hg]
          exact ih _ _ _ (values_mapErase_nodup idx _ hvals) p hp1 hcpp
        · exact absurd hg (hget _ e)
      · simp only [deleteLoop, hcp]
        exact ih _ _ _ hvals p hp1 hcpp

/-! ### Theorems: creation pass consistency -/

theorem self_mem_mapKeys_mapInsert (m : SMap) (k v : String) :
    k ∈ mapKeys (mapInsert m k v) := by
  rw [mapKeys_mapInsert]
  by_cases hs : (mapLookup m k).isSome
  · rw [if_pos hs]
    exact (mapLookup_isSome_iff m k).mp hs
  · rw [if_neg hs]
    simp

theorem mem_mapKeys_mapInsert_of_mem (m : SMap) (k v k2 : String)
    (h : k2 ∈ mapKeys m) : k2 ∈ mapKeys (mapInsert m k v) := by
  rw [mapKeys_mapInsert]
  split <;> simp [h]

theorem mapValues_mapInsert_of_none (m : SMap) (k v : String)
    (h : mapLookup m k = none) :
    mapValues (mapInsert m k v) = mapValues m ++ [v] := by
  rw [mapInsert_of_lookup_none m k v h, mapValues, mapValues, List.map_append]
  rfl

theorem recreateLoop_invariant (tplName : String) :
    ∀ (objs : List Metal3Data) (idx dn : SMap),
      mapWF idx →
      (∀ v ∈ mapValues idx, v ∈ mapKeys dn) →
      (∀ k ∈ mapKeys dn, k ∈ mapValues idx) →
      (∀ x ∈ objs, backRefs tplName x = true → itoa x.index ∉ mapKeys idx) →
      ((objs.filter (fun x => backRefs tplName x)).map
        (fun x => itoa x.index)).Nodup →
      mapWF (recreateLoop tplName objs idx dn).1
      ∧ (∀ v ∈ mapValues (recreateLoop tplName objs idx dn).1,
          v ∈ mapKeys (recreateLoop tplName objs idx dn).2)
      ∧ (∀ k ∈ mapKeys (recreateLoop tplName objs idx dn).2,
          k ∈ mapValues (recreateLoop tplName objs idx dn).1) := by
  intro objs
  induction objs with
  | nil => intro idx dn h1 h2 h3 _ _; exact ⟨h1, h2, h3⟩
  | cons x rest ih =>
    intro idx dn hwf hdir1 hdir2 hdisj hnd
    by_cases hb : backRefs tplName x = true
    · rw [recreateLoop, if_pos hb]
      rw [List.filter_cons_of_pos (by simpa using hb), List.map_cons,
        List.nodup_cons] at hnd
      have hKfresh : mapLookup idx (itoa x.index) = none := by
        rw [← Option.not_isSome_iff_eq_none]
        intro hs
        exact hdisj x (List.mem_cons_self _ _) hb ((mapLookup_isSome_iff _ _).mp hs)
      apply ih
      · exact mapWF_mapInsert _ _ _ hwf
      · intro v hv
        rw [mapValues_mapInsert_of_none _ _ _ hKfresh] at hv
        rcases List.mem_append.mp hv with hv1 | hv1
        · exact mem_mapKeys_mapInsert_of_mem _ _ _ _ (hdir1 v hv1)
        · rw [List.mem_singleton] at hv1
          rw [hv1]
          exact self_mem_mapKeys_mapInsert _ _ _
      · intro k hk
        rcases mem_mapKeys_mapInsert _ _ _ _ hk with h1 | h1
        · rw [mapValues_mapInsert_of_none _ _ _ hKfresh]
          exact List.mem_append.mpr (Or.inl (hdir2 k h1))
        · rw [mapValues_mapInsert_of_none _ _ _ hKfresh, h1]
          simp
      · intro y hy hby hmem
        rw [mapKeys_mapInsert, if_neg (by simp [hKfresh])] at hmem
        rcases List.mem_append.mp hmem with h1 | h1
        · exact hdisj y (List.mem_cons_of_mem _ hy) hby h1
        · rw [List.mem_singleton] at h1
          exact hnd.1 (h1 ▸ List.mem_map.mpr
            ⟨y, List.mem_filter.mpr ⟨hy, by simpa using hby⟩, rfl⟩)
      · exact hnd.2
    · rw [recreateLoop, if_neg hb]
      rw [List.filter_cons_of_neg (by simpa using hb)] at hnd
      exact ih _ _ hwf hdir1 hdir2
        (fun y hy hby => hdisj y (List.mem_cons_of_mem _ hy) hby) hnd

theorem createLoop_consistent (env : Env) (t : Template)
    (hworld : ∀ objs, env.listResult = Except.ok objs →
      ((objs.filter (fun x => backRefs t.name x)).map
        (fun x => itoa x.index)).Nodup) :
    ∀ (refs : List OwnerRef) (s : MStatus) (rq : Bool) (tr : Trace),
      mapWF s.indexes →
      (∀ v ∈ mapValues s.indexes, v ∈ mapKeys s.dataNames) →
      (∀ k ∈ mapKeys s.dataNames, k ∈ mapValues s.indexes) →
      mapWF (createLoop env t refs s rq tr).1.indexes
      ∧ (∀ v ∈ mapValues (createLoop env t refs s rq tr).1.indexes,
          v ∈ mapKeys (createLoop env t refs s rq tr).1.dataNames)
      ∧ (∀ k ∈ mapKeys (createLoop env t refs s rq tr).1.dataNames,
          k ∈ mapValues (createLoop env t refs s rq tr).1.indexes) := by
  intro refs
  induction refs with
  | nil => intro s rq tr h1 h2 h3; exact ⟨h1, h2, h3⟩
  | cons r rest ih =>
    intro s rq tr hwf hdir1 hdir2
    rcases hgv : parseGroupVersion r.apiVersion with e | gv
    · simp only [createLoop, hgv]
      exact ⟨hwf, hdir1, hdir2⟩
    · simp only [createLoop, hgv]
      by_cases hm : r.kind ≠ "Metal3Machine" ∨ gv.group ≠ metal3Group
      · rw [if_pos hm]
        exact ih _ _ _ hwf hdir1 hdir2
      · rw [if_neg hm]
        by_cases hentry : (mapLookup s.dataNames r.name).isSome
        · rw [if_pos hentry]
          exact ih _ _ _ hwf hdir1 hdir2
        · rw [if_neg hentry]
          rcases hres : env.resolve r.name with _ | _ | e
          · rcases hlab : labelLookup t.labels clusterLabelName with _ | c
            · exact ⟨hwf, hdir1, hdir2⟩
            · simp only []
              have hKfresh : mapLookup s.indexes
                  (itoa (Int.ofNat (allocateIndex s.indexes))) = none :=
                (allocateIndex_spec s.indexes hwf).1
              have hwf2 : mapWF (mapInsert s.indexes
                  (itoa (Int.ofNat (allocateIndex s.indexes))) r.name) :=
                mapWF_mapInsert _ _ _ hwf
              have hdir1b : ∀ v ∈ mapValues (mapInsert s.indexes
                    (itoa (Int.ofNat (allocateIndex s.indexes))) r.name),
                  v ∈ mapKeys (mapInsert s.dataNames r.name
                    (t.name ++ "-" ++ itoa (Int.ofNat (allocateIndex s.indexes)))) := by
                intro v hv
                rw [mapValues_mapInsert_of_none _ _ _ hKfresh] at hv
                rcases List.mem_append.mp hv with hv1 | hv1
                · exact mem_mapKeys_mapInsert_of_mem _ _ _ _ (hdir1 v hv1)
                · rw [List.mem_singleton] at hv1
                  rw [hv1]
                  exact self_mem_mapKeys_mapInsert _ _ _
              have hdir2b : ∀ k ∈ mapKeys (mapInsert s.dataNames r.name
                    (t.name ++ "-" ++ itoa (Int.ofNat (allocateIndex s.indexes)))),
                  k ∈ mapValues (mapInsert s.indexes
                    (itoa (Int.ofNat (allocateIndex s.indexes))) r.name) := by
                intro k hk
                rw [mapValues_mapInsert_of_none _ _ _ hKfresh]
                rcases mem_mapKeys_mapInsert _ _ _ _ hk with h1 | h1
                · exact List.mem_append.mpr (Or.inl (hdir2 k h1))
                · rw [h1]
                  simp
              rcases hcr : env.create (buildDataObject t r c
                  (Int.ofNat (allocateIndex s.indexes))
                  (t.name ++ "-" ++ itoa (Int.ofNat (allocateIndex s.indexes))))
                  with _ | _ | e
              · exact ih { s with indexes := mapInsert s.indexes (itoa (Int.ofNat (allocateIndex s.indexes))) r.name, dataNames := mapInsert s.dataNames r.name (t.name ++ "-" ++ itoa (Int.ofNat (allocateIndex s.indexes))) } _ _ hwf2 hdir1b hdir2b
              · rcases hEL : env.listResult with e | objs
                · simp only [recreateStatusCore, hEL]
                  refine ⟨?_, ?_, ?_⟩
                  · simp [mapWF, mapKeys]
                  · simp [mapValues]
                  · simp [mapKeys]
                · simp only [recreateStatusCore, hEL]
                  have hrec := recreateLoop_invariant t.name objs [] []
                    (by simp [mapWF, mapKeys]) (by simp [mapValues])
                    (by simp [mapKeys]) (by simp [mapKeys]) (hworld objs hEL)
                  exact ih { indexes := (recreateLoop t.name objs [] []).1, dataNames := (recreateLoop t.name objs [] []).2, lastUpdatedSet := true } _ _ hrec.1 hrec.2.1 hrec.2.2
              · exact ⟨hwf2, hdir1b, hdir2b⟩
          · exact ih _ _ _ hwf hdir1 hdir2
          · exact ⟨hwf, hdir1, hdir2⟩

/-! ### Claims -/

/-- Claim C1: index allocation in the creation pass returns the lowest
non-negative integer `i` whose decimal key `str(i)` is absent from the
indexes map — for a duplicate-free map of size `n` this is the smallest
gap in `0..n-1` when one exists and `n` otherwise (the chosen index never
exceeds `n`, every index below it is occupied, the chosen one is free) —
and on the maps with key sets `{0,1,3}` and `{0,1,2}` it returns `2`
and `3`. -/
theorem C1_index_allocation (idx : SMap) (hwf : mapWF idx) :
    (mapLookup idx (itoa (Int.ofNat (allocateIndex idx))) = none
      ∧ (∀ j : Nat, j < allocateIndex idx →
          (mapLookup idx (itoa (Int.ofNat j))).isSome)
      ∧ allocateIndex idx ≤ mapSize idx)
    ∧ allocateIndex gapMap = 2
    ∧ allocateIndex fullMap = 3 :=
  ⟨allocateIndex_spec idx hwf, by decide, by decide⟩

/-- Witness for C1 at the gap map `{0,1,3}`. -/
theorem C1_index_allocation_witness :
    mapWF gapMap
    ∧ ((mapLookup gapMap (itoa (Int.ofNat (allocateIndex gapMap))) = none
        ∧ (∀ j : Nat, j < allocateIndex gapMap →
            (mapLookup gapMap (itoa (Int.ofNat j))).isSome)
        ∧ allocateIndex gapMap ≤ mapSize gapMap)
      ∧ allocateIndex gapMap = 2
      ∧ allocateIndex fullMap = 3) :=
  ⟨by decide, C1_index_allocation gapMap (by decide)⟩

/-- Claim C7: RecreateStatus is idempotent — rebuilding the status twice
against the same world yields the same `indexes` and `dataNames` maps as
rebuilding once. -/
theorem C7_recreateStatus_idempotent (env : Env) (t : Template) :
    (recreateStatus env (recreateStatus env t).1).1.status.indexes
      = (recreateStatus env t).1.status.indexes
    ∧ (recreateStatus env (recreateStatus env t).1).1.status.dataNames
      = (recreateStatus env t).1.status.dataNames := by
  rcases h : env.listResult with e | objs <;>
    simp [recreateStatus, recreateStatusCore, h]

/-- Claim C6: end-to-end.  From `tpl` with owner references `[m1, m2]`
and empty status, the creation pass yields `indexes = {"0": m1, "1": m2}`
and `dataNames = {m1: tpl-0, m2: tpl-1}`; after removing `m1`, the
deletion pass succeeds, deletes the derived object `tpl-0`, and leaves
`indexes = {"1": m2}`, `dataNames = {m2: tpl-1}`. -/
theorem C6_end_to_end :
    tplC6afterCreate.status.indexes = [("0", "m1"), ("1", "m2")]
    ∧ tplC6afterCreate.status.dataNames = [("m1", "tpl-0"), ("m2", "tpl-1")]
    ∧ (deleteDatas envC6 tplC6afterRemoval).1.status.indexes = [("1", "m2")]
    ∧ (deleteDatas envC6 tplC6afterRemoval).1.status.dataNames = [("m2", "tpl-1")]
    ∧ (deleteDatas envC6 tplC6afterRemoval).2.1 = none
    ∧ (deleteDatas envC6 tplC6afterRemoval).2.2.deleted = ["tpl-0"] := by
  refine ⟨?_, ?_, ?_, ?_, ?_, ?_⟩ <;> decide

/-- Claim C4, evaluated at the failing input: the single owner reference
of kind `Metal3Cluster` carrying the provider API group matches the
expected member type on neither component conjunction, so the claim
predicts `DeleteReady = true`; the code returns `false` because line 346
tests the kind and the API group with `||` instead of `&&`. -/
theorem C4_deleteReady_code_eval :
    (∀ r ∈ tplC4.ownerReferences, isMatchingRef r = false)
    ∧ deleteReadyT tplC4 = (false, none) := by
  refine ⟨?_, ?_⟩ <;> decide

/-- Claim C9: the creation pass is idempotent.  If every owner reference
parses and every matching owner already has a `dataNames` entry, a further
`CreateDatas` run creates no derived object (no attempts, no creations),
leaves both maps unchanged, and returns `ok` rather than the requeue
signal. -/
theorem C9_creation_idempotent (env : Env) (t : Template)
    (hparse : ∀ r ∈ t.ownerReferences, parseOK r.apiVersion = true)
    (hdone : ∀ r ∈ t.ownerReferences, isMatchingRef r = true →
      (mapLookup t.status.dataNames r.name).isSome) :
    (createDatas env t).1.status.indexes = t.status.indexes
    ∧ (createDatas env t).1.status.dataNames = t.status.dataNames
    ∧ (createDatas env t).2.1 = Outcome.ok
    ∧ (createDatas env t).2.2.created = []
    ∧ (createDatas env t).2.2.attempts = [] := by
  have h := createLoop_skip_all env t t.ownerReferences t.status false Trace.nil
    hparse hdone
  simp only [createDatas]
  rw [h]
  simp [Trace.nil]

/-- Witness for C9: running the creation pass again on the C6 template
after its first creation pass is a no-op. -/
theorem C9_creation_idempotent_witness :
    ((∀ r ∈ tplC6afterCreate.ownerReferences, parseOK r.apiVersion = true)
      ∧ (∀ r ∈ tplC6afterCreate.ownerReferences, isMatchingRef r = true →
          (mapLookup tplC6afterCreate.status.dataNames r.name).isSome))
    ∧ ((createDatas envC6 tplC6afterCreate).1.status.indexes
        = tplC6afterCreate.status.indexes
      ∧ (createDatas envC6 tplC6afterCreate).1.status.dataNames
        = tplC6afterCreate.status.dataNames
      ∧ (createDatas envC6 tplC6afterCreate).2.1 = Outcome.ok
      ∧ (createDatas envC6 tplC6afterCreate).2.2.created = []
      ∧ (createDatas envC6 tplC6afterCreate).2.2.attempts = []) :=
  ⟨⟨by decide, by decide⟩,
    C9_creation_idempotent envC6 tplC6afterCreate (by decide) (by decide)⟩

/-- Claim C3: a creation conflict is recovered locally.  When no
collaborator returns a hard error (creates succeed or report conflicts,
members resolve or are absent, listing works, the cluster label is set
and all references parse), the pass never returns a hard error, and it
signals a soft requeue exactly when a conflict forced at least one status
reconstruction.  Concretely, with a racing client that reports a conflict
for owner `m1`'s object: reconstruction runs once, the pass still creates
`tpl-1` for the remaining owner `m2`, and the outcome is the requeue
signal. -/
theorem C3_conflict_soft_requeue (env : Env) (t : Template)
    (hparse : ∀ r ∈ t.ownerReferences, parseOK r.apiVersion = true)
    (hresolve : ∀ n e, env.resolve n ≠ ResolveRes.err e)
    (hcreate : ∀ d e, env.create d ≠ CreateRes.err e)
    (hlist : ∀ e, env.listResult ≠ Except.error e)
    (hlabel : (labelLookup t.labels clusterLabelName).isSome) :
    ((∀ e, (createDatas env t).2.1 ≠ Outcome.failed e)
      ∧ ((createDatas env t).2.1 = Outcome.requeueAfter ↔
          1 ≤ (createDatas env t).2.2.recreates))
    ∧ (createDatas envC3 tplC6).2.1 = Outcome.requeueAfter
    ∧ (createDatas envC3 tplC6).2.2.recreates = 1
    ∧ (createDatas envC3 tplC6).2.2.created = ["tpl-1"] := by
  obtain ⟨h1, h2, h3⟩ := createLoop_no_hard_error env t hresolve hcreate hlist hlabel
    t.ownerReferences t.status false Trace.nil hparse
  have hz : Trace.nil.recreates = 0 := rfl
  refine ⟨⟨?_, ?_⟩, by decide, by decide, by decide⟩
  · intro e
    simp only [createDatas, h1]
    split <;> simp
  · simp only [createDatas, h1]
    rcases hb : (createLoop env t t.ownerReferences t.status false Trace.nil).2.1 with _ | _
    · rw [hb] at h3
      have hR : (createLoop env t t.ownerReferences t.status false
          Trace.nil).2.2.1.recreates = 0 := by
        by_contra hne
        have hlt : Trace.nil.recreates < (createLoop env t t.ownerReferences t.status false
            Trace.nil).2.2.1.recreates := by omega
        have hfalse := h3.mpr (Or.inr hlt)
        simp at hfalse
      simp [hR]
    · rw [hb] at h3
      have hR : 1 ≤ (createLoop env t t.ownerReferences t.status false
          Trace.nil).2.2.1.recreates := by
        rcases h3.mp rfl with hc | hc
        · simp at hc
        · omega
      simp [hR]

/-- Witness for C3: the racing client `envC3` satisfies the no-hard-error
hypotheses on the C6 template, and the pass indeed ends without a hard
error. -/
theorem C3_conflict_soft_requeue_witness :
    ((∀ r ∈ tplC6.ownerReferences, parseOK r.apiVersion = true)
      ∧ (∀ n e, envC3.resolve n ≠ ResolveRes.err e)
      ∧ (∀ d e, envC3.create d ≠ CreateRes.err e)
      ∧ (∀ e, envC3.listResult ≠ Except.error e)
      ∧ (labelLookup tplC6.labels clusterLabelName).isSome)
    ∧ (∀ e, (createDatas envC3 tplC6).2.1 ≠ Outcome.failed e) :=
  ⟨⟨by decide,
    by intro n e h; simp [envC3] at h,
    by intro d e h; simp only [envC3] at h; split at h <;> simp at h,
    by intro e h; simp [envC3] at h,
    by decide⟩,
    (C3_conflict_soft_requeue envC3 tplC6 (by decide)
      (by intro n e h; simp [envC3] at h)
      (by intro d e h; simp only [envC3] at h; split at h <;> simp at h)
      (by intro e h; simp [envC3] at h)
      (by decide)).1.1⟩

/-- Claim C5: RecreateStatus rebuilds the status from the listed world.
Under distinct indexes among the objects that back-reference the template:
every such object `d` contributes `indexes[str(d.index)] = ownerName` (the
owner name defaulting to the empty string, so orphaned objects still
reserve their index), and — when no other matching object shares `d`'s
owner name with a different derived name — `dataNames[ownerName] =
d.name`; objects not referencing this template contribute nothing (all
keys of either map stem from matching objects), and the timestamp is set
on completion. -/
theorem C5_recreate_status (env : Env) (t : Template) (objs : List Metal3Data)
    (henv : env.listResult = Except.ok objs)
    (hidx : ((objs.filter (fun x => backRefs t.name x)).map
      (fun x => itoa x.index)).Nodup) :
    (∀ d ∈ objs, backRefs t.name d = true →
      mapLookup (recreateStatus env t).1.status.indexes (itoa d.index)
        = some (recordedMachineName d))
    ∧ (∀ d ∈ objs, backRefs t.name d = true →
        (∀ x ∈ objs, backRefs t.name x = true →
          recordedMachineName x = recordedMachineName d → x.name = d.name) →
        mapLookup (recreateStatus env t).1.status.dataNames (recordedMachineName d)
          = some d.name)
    ∧ (∀ k ∈ mapKeys (recreateStatus env t).1.status.indexes,
        ∃ d ∈ objs, backRefs t.name d = true ∧ k = itoa d.index)
    ∧ (∀ k ∈ mapKeys (recreateStatus env t).1.status.dataNames,
        ∃ d ∈ objs, backRefs t.name d = true ∧ k = recordedMachineName d)
    ∧ (recreateStatus env t).1.status.lastUpdatedSet = true := by
  have hs : (recreateStatus env t).1.status =
      { indexes := (recreateLoop t.name objs [] []).1
        dataNames := (recreateLoop t.name objs [] []).2
        lastUpdatedSet := true } := by
    simp [recreateStatus, recreateStatusCore, henv]
  rw [hs]
  refine ⟨?_, ?_, ?_, ?_, rfl⟩
  · intro d hd hbd
    exact recreateLoop_indexes_lookup t.name objs [] [] d hd hbd hidx
  · intro d hd hbd huniq
    exact recreateLoop_dataNames_lookup t.name objs [] [] d hd hbd huniq
  · intro k hk
    rcases (recreateLoop_keys_sub t.name objs [] []).1 k hk with h | h
    · simp [mapKeys] at h
    · exact h
  · intro k hk
    rcases (recreateLoop_keys_sub t.name objs [] []).2 k hk with h | h
    · simp [mapKeys] at h
    · exact h

/-- Witness for C5: a world with a normal object, an orphan, and a
foreign-template object. -/
theorem C5_recreate_status_witness :
    (envC5.listResult = Except.ok [d0C5, d1C5, d2C5]
      ∧ (([d0C5, d1C5, d2C5].filter (fun x => backRefs tplC6.name x)).map
          (fun x => itoa x.index)).Nodup)
    ∧ (∀ d ∈ [d0C5, d1C5, d2C5], backRefs tplC6.name d = true →
        mapLookup (recreateStatus envC5 tplC6).1.status.indexes (itoa d.index)
          = some (recordedMachineName d)) :=
  ⟨⟨rfl, by decide⟩,
    (C5_recreate_status envC5 tplC6 [d0C5, d1C5, d2C5] rfl (by decide)).1⟩

/-- Claim C10 (implicit): a non-conflict creation error is returned with
the in-memory status already mutated.  If the loop reaches owner `r` in
state `s` (prefix processed without error), `r` is a matching reference
with no entry whose member resolves, the cluster label is present, and
creating the derived object fails with a non-conflict error `e`, then
`CreateDatas` returns `failed e` while the allocated entry for `r` is
recorded in both maps, and the end-of-pass timestamp update is skipped
(no further timestamp write; the in-memory `LastUpdated` keeps its
previous value). -/
theorem C10_hard_error_not_atomic (env : Env) (t : Template)
    (pre rest : List OwnerRef) (r : OwnerRef) (s : MStatus) (rqp : Bool)
    (trp : Trace) (gv : GroupVersion) (c : String) (e : GoErr)
    (hrefs : t.ownerReferences = pre ++ r :: rest)
    (hS : createLoop env t pre t.status false Trace.nil = (s, rqp, trp, none))
    (hgv : parseGroupVersion r.apiVersion = Except.ok gv)
    (hkind : r.kind = "Metal3Machine") (hgrp : gv.group = metal3Group)
    (hentry : mapLookup s.dataNames r.name = none)
    (hres : env.resolve r.name = ResolveRes.found)
    (hlab : labelLookup t.labels clusterLabelName = some c)
    (hcr : env.create (buildDataObject t r c (Int.ofNat (allocateIndex s.indexes))
      (t.name ++ "-" ++ itoa (Int.ofNat (allocateIndex s.indexes))))
      = CreateRes.err e) :
    (createDatas env t).2.1 = Outcome.failed e
    ∧ mapLookup (createDatas env t).1.status.indexes
        (itoa (Int.ofNat (allocateIndex s.indexes))) = some r.name
    ∧ mapLookup (createDatas env t).1.status.dataNames r.name
        = some (t.name ++ "-" ++ itoa (Int.ofNat (allocateIndex s.indexes)))
    ∧ (createDatas env t).2.2.tsWrites = trp.tsWrites
    ∧ (createDatas env t).1.status.lastUpdatedSet = s.lastUpdatedSet := by
  have hloop : createLoop env t t.ownerReferences t.status false Trace.nil
      = ({ s with
            indexes := mapInsert s.indexes
              (itoa (Int.ofNat (allocateIndex s.indexes))) r.name
            dataNames := mapInsert s.dataNames r.name
              (t.name ++ "-" ++ itoa (Int.ofNat (allocateIndex s.indexes))) },
          rqp,
          { trp with attempts := trp.attempts
              ++ [t.name ++ "-" ++ itoa (Int.ofNat (allocateIndex s.indexes))] },
          some e) := by
    rw [hrefs, createLoop_append_ok env t pre (r :: rest) t.status false Trace.nil
      (by rw [hS]), hS]
    exact createLoop_step_create_err env t r rest s rqp
      { trp with attempts := trp.attempts } gv c e hgv hkind hgrp hentry hres hlab hcr
  simp only [createDatas, hloop]
  simp [mapLookup_mapInsert_self]

/-- Witness for C10: every creation fails hard; the pass returns the
error with owner `m1`'s freshly allocated entry left in the maps and the
timestamp untouched. -/
theorem C10_hard_error_not_atomic_witness :
    (tplC6.ownerReferences
        = [] ++ (⟨"Metal3Machine", m3apiVersion, "m1"⟩ : OwnerRef)
            :: [⟨"Metal3Machine", m3apiVersion, "m2"⟩]
      ∧ createLoop envC10 tplC6 [] tplC6.status false Trace.nil
          = (tplC6.status, false, Trace.nil, none)
      ∧ parseGroupVersion m3apiVersion
          = Except.ok ⟨"infrastructure.cluster.x-k8s.io", "v1alpha4"⟩
      ∧ mapLookup tplC6.status.dataNames "m1" = none
      ∧ envC10.resolve "m1" = ResolveRes.found
      ∧ labelLookup tplC6.labels clusterLabelName = some "cluster-1"
      ∧ envC10.create (buildDataObject tplC6
            ⟨"Metal3Machine", m3apiVersion, "m1"⟩ "cluster-1"
            (Int.ofNat (allocateIndex tplC6.status.indexes))
            (tplC6.name ++ "-" ++ itoa (Int.ofNat (allocateIndex tplC6.status.indexes))))
          = CreateRes.err (GoErr.collaborator "etcd down"))
    ∧ ((createDatas envC10 tplC6).2.1
        = Outcome.failed (GoErr.collaborator "etcd down")
      ∧ mapLookup (createDatas envC10 tplC6).1.status.indexes
          (itoa (Int.ofNat (allocateIndex tplC6.status.indexes))) = some "m1"
      ∧ mapLookup (createDatas envC10 tplC6).1.status.dataNames "m1"
          = some (tplC6.name ++ "-"
              ++ itoa (Int.ofNat (allocateIndex tplC6.status.indexes)))
      ∧ (createDatas envC10 tplC6).2.2.tsWrites = Trace.nil.tsWrites
      ∧ (createDatas envC10 tplC6).1.status.lastUpdatedSet
          = tplC6.status.lastUpdatedSet) :=
  ⟨⟨by decide, by decide, rfl, by decide, by decide, by decide, by decide⟩,
    C10_hard_error_not_atomic envC10 tplC6 []
      [⟨"Metal3Machine", m3apiVersion, "m2"⟩] ⟨"Metal3Machine", m3apiVersion, "m1"⟩
      tplC6.status false Trace.nil ⟨"infrastructure.cluster.x-k8s.io", "v1alpha4"⟩
      "cluster-1" (GoErr.collaborator "etcd down")
      (by decide) (by decide) rfl (by decide) (by decide) (by decide)
      (by decide) (by decide) (by decide)⟩

/-- Claim C2, counterexample to the unconditional invariant: from the
mutually consistent (but duplicate-valued) status `indexes = {"0": "",
"1": ""}`, `dataNames = {"": "tpl-1"}` — the state RecreateStatus records
for two orphaned derived objects — a deletion pass with the orphan owner
absent succeeds (returns nil) yet breaks consistency: the value scan of
lines 322-327 erases only the last index entry with the empty value, so
`indexes = {"0": ""}` remains while the `dataNames` binding is gone. -/
theorem C2_mutual_consistency_counterexample :
    mutuallyConsistent tplC2x.status
    ∧ (deleteDatas envC8 tplC2x).2.1 = none
    ∧ ¬ mutuallyConsistent (deleteDatas envC8 tplC2x).1.status := by
  refine ⟨?_, ?_, ?_⟩ <;> decide

/-- Claim C2, amended: mutual consistency of the two status maps is an
invariant of both passes away from duplicate-valued index maps.  A
creation pass that returns no hard error, starting from a consistent
status with duplicate-free index keys (and a world whose
back-referencing objects carry distinct indexes, for the conflict path),
leaves the status mutually consistent; a deletion pass that returns nil,
starting from a consistent well-formed status whose index values are
also duplicate-free, does likewise. -/
theorem C2_mutual_consistency :
    (∀ (env : Env) (t : Template),
      mapWF t.status.indexes → mutuallyConsistent t.status →
      (∀ objs, env.listResult = Except.ok objs →
        ((objs.filter (fun x => backRefs t.name x)).map
          (fun x => itoa x.index)).Nodup) →
      (∀ e, (createDatas env t).2.1 ≠ Outcome.failed e) →
      mutuallyConsistent (createDatas env t).1.status)
    ∧ (∀ (env : Env) (t : Template),
      mapWF t.status.indexes → mapWF t.status.dataNames →
      (mapValues t.status.indexes).Nodup → mutuallyConsistent t.status →
      (deleteDatas env t).2.1 = none →
      mutuallyConsistent (deleteDatas env t).1.status) := by
  constructor
  · intro env t hwf hmc hworld hnofail
    have hinv := createLoop_consistent env t hworld t.ownerReferences t.status
      false Trace.nil hwf hmc.1 hmc.2
    rcases hL : (createLoop env t t.ownerReferences t.status false
        Trace.nil).2.2.2 with _ | e
    · have h1 : (createDatas env t).1.status.indexes
          = (createLoop env t t.ownerReferences t.status false Trace.nil).1.indexes := by
        simp only [createDatas, hL]
      have h2 : (createDatas env t).1.status.dataNames
          = (createLoop env t t.ownerReferences t.status false Trace.nil).1.dataNames := by
        simp only [createDatas, hL]
      exact ⟨by rw [h1, h2]; exact hinv.2.1, by rw [h1, h2]; exact hinv.2.2⟩
    · exact absurd (by simp only [createDatas, hL] : (createDatas env t).2.1
        = Outcome.failed e) (hnofail e)
  · intro env t hwfI hwfD hvals hmc hnil
    have hinv := deleteLoop_invariant env t.ownerReferences t.status.dataNames
      t.status.indexes t.status.dataNames Trace.nil hwfI hwfD hvals hmc.1 hmc.2
      hwfD (fun p hp => List.mem_map.mpr ⟨p, hp, rfl⟩)
    rcases hL : (deleteLoop env t.ownerReferences t.status.dataNames
        t.status.indexes t.status.dataNames Trace.nil).2.2.2 with _ | e
    · have h1 : (deleteDatas env t).1.status.indexes
          = (deleteLoop env t.ownerReferences t.status.dataNames
              t.status.indexes t.status.dataNames Trace.nil).1 := by
        simp only [deleteDatas, hL]
      have h2 : (deleteDatas env t).1.status.dataNames
          = (deleteLoop env t.ownerReferences t.status.dataNames
              t.status.indexes t.status.dataNames Trace.nil).2.1 := by
        simp only [deleteDatas, hL]
      exact ⟨by rw [h1, h2]; exact hinv.2.2.2.1, by rw [h1, h2]; exact hinv.2.2.2.2⟩
    · exfalso
      have : (deleteDatas env t).2.1 = some e := by
        simp only [deleteDatas, hL]
      rw [hnil] at this
      simp at this

/-- Witness for C2: creation pass on the empty-status C6 template and
deletion pass after removing owner `m1`. -/
theorem C2_mutual_consistency_witness :
    ((mapWF tplC6.status.indexes ∧ mutuallyConsistent tplC6.status
      ∧ (∀ e, (createDatas envC6 tplC6).2.1 ≠ Outcome.failed e))
      ∧ mutuallyConsistent (createDatas envC6 tplC6).1.status)
    ∧ ((mapWF tplC6afterRemoval.status.indexes
      ∧ mapWF tplC6afterRemoval.status.dataNames
      ∧ (mapValues tplC6afterRemoval.status.indexes).Nodup
      ∧ mutuallyConsistent tplC6afterRemoval.status
      ∧ (deleteDatas envC6 tplC6afterRemoval).2.1 = none)
      ∧ mutuallyConsistent (deleteDatas envC6 tplC6afterRemoval).1.status) :=
  ⟨⟨⟨by decide, by decide,
    by
      intro e h
      rw [show (createDatas envC6 tplC6).2.1 = Outcome.ok from by decide] at h
      simp at h⟩,
    C2_mutual_consistency.1 envC6 tplC6 (by decide) (by decide)
      (by
        intro objs h
        simp only [envC6] at h
        injection h with h2
        rw [← h2]
        decide)
      (by
        intro e h
        rw [show (createDatas envC6 tplC6).2.1 = Outcome.ok from by decide] at h
        simp at h)⟩,
   ⟨⟨by decide, by decide, by decide, by decide, by decide⟩,
    C2_mutual_consistency.2 envC6 tplC6afterRemoval (by decide) (by decide)
      (by decide) (by decide) (by decide)⟩⟩

/-- Claim C8: in the deletion pass, "not found" on get or delete is
treated as success.  With parseable references and a client that returns
no hard errors (get may report "not found", delete may report "not
found"), the pass returns nil, writes the timestamp exactly once after
all pairs (never inside the loop), and for every `dataNames` entry whose
owner is absent from the matching owner references, the `dataNames`
binding and the index entry carrying that owner as its value are removed
(duplicate-free index values assumed). -/
theorem C8_delete_tolerates_notfound (env : Env) (t : Template)
    (hparse : ∀ r ∈ t.ownerReferences, parseOK r.apiVersion = true)
    (hget : ∀ n e, env.get n ≠ GetRes.err e)
    (hdel : ∀ n e, env.delete n ≠ DeleteRes.err e)
    (hvals : (mapValues t.status.indexes).Nodup) :
    (deleteDatas env t).2.1 = none
    ∧ (deleteDatas env t).2.2.tsWrites = 1
    ∧ ∀ p ∈ t.status.dataNames,
        checkPresent t.ownerReferences p.1 = Except.ok false →
        mapLookup (deleteDatas env t).1.status.dataNames p.1 = none
        ∧ p.1 ∉ mapValues (deleteDatas env t).1.status.indexes := by
  have hne := deleteLoop_no_error env t.ownerReferences hparse hget hdel
    t.status.dataNames t.status.indexes t.status.dataNames Trace.nil
  have hrm := deleteLoop_removes env t.ownerReferences hparse hget hdel
    t.status.dataNames t.status.indexes t.status.dataNames Trace.nil hvals
  refine ⟨?_, ?_, ?_⟩
  · simp only [deleteDatas, hne.1]
  · have h2 : (deleteDatas env t).2.2.tsWrites
        = (deleteLoop env t.ownerReferences t.status.dataNames
            t.status.indexes t.status.dataNames Trace.nil).2.2.1.tsWrites + 1 := by
      simp only [deleteDatas, hne.1]
    rw [h2, hne.2]
    rfl
  · intro p hp hcp
    have h1 : (deleteDatas env t).1.status.dataNames
        = (deleteLoop env t.ownerReferences t.status.dataNames
            t.status.indexes t.status.dataNames Trace.nil).2.1 := by
      simp only [deleteDatas, hne.1]
    have h2 : (deleteDatas env t).1.status.indexes
        = (deleteLoop env t.ownerReferences t.status.dataNames
            t.status.indexes t.status.dataNames Trace.nil).1 := by
      simp only [deleteDatas, hne.1]
    rw [h1, h2]
    exact hrm p hp hcp

/-- Witness for C8: owner `m1` is absent from the references and both get
and delete report "not found"; the pass still succeeds, removes `m1`'s
entries, and writes the timestamp once. -/
theorem C8_delete_tolerates_notfound_witness :
    ((∀ r ∈ tplC6afterRemoval.ownerReferences, parseOK r.apiVersion = true)
      ∧ (mapValues tplC6afterRemoval.status.indexes).Nodup
      ∧ checkPresent tplC6afterRemoval.ownerReferences "m1" = Except.ok false)
    ∧ ((deleteDatas envC8 tplC6afterRemoval).2.1 = none
      ∧ (deleteDatas envC8 tplC6afterRemoval).2.2.tsWrites = 1
      ∧ ∀ p ∈ tplC6afterRemoval.status.dataNames,
          checkPresent tplC6afterRemoval.ownerReferences p.1 = Except.ok false →
          mapLookup (deleteDatas envC8 tplC6afterRemoval).1.status.dataNames p.1 = none
          ∧ p.1 ∉ mapValues (deleteDatas envC8 tplC6afterRemoval).1.status.indexes) :=
  ⟨⟨by decide, by decide, rfl⟩,
    C8_delete_tolerates_notfound envC8 tplC6afterRemoval (by decide)
      (by intro n e h; simp [envC8] at h)
      (by intro n e h; simp [envC8] at h)
      (by decide)⟩

end Metal3
